import Mathlib

/-!
# Verification of the hackernews-mcp comment-tree builder and content retriever

Shallow embedding of the core of `src/utils.ts` (the recursive comment-tree
builder `fetchComments`, the item filter, and the renderer
`formatCommentsAsText`) and of `src/fetcher.ts` (the `Fetcher` class with its
windowing step `applyLengthLimits` and the private-address security gate in
`_fetch`), together with proofs of the specified properties.

Modelling conventions:
* JS strings are modelled as `List Char` (one entry per UTF-16 code unit of the
  original; all texts involved here are plain).
* `fetchItem` (axios lookup that collapses any failure to `null`) is modelled
  as a `Store : Nat → Option Item`; `none` covers both "no such item" and a
  transient fetch failure, exactly as `fetchItem` returns `null` in both cases.
* `Promise.all` collects results into positional slots; the sequential
  `List.filterMap` below produces exactly that slot order.  A separate
  schedule-explicit evaluator `fetchCommentsSched` makes the completion order
  of the concurrent lookups visible, to prove it unobservable.
* The ISO-8601 re-rendering of `time` is an injective change of representation
  that no claim depends on; the node keeps the numeric timestamp.
-/

/-- An item as returned by the Hacker News API (`Story`/`Comment` of
`src/types.ts`, the fields read by `fetchComments`).  `type` is `none` when the
field is absent; `deleted`/`dead` are `false` when absent (JS falsy). -/
structure Item where
  id : Nat
  type : Option String := none
  by_ : Option String := none
  time : Option Int := none
  score : Option Int := none
  text : Option String := none
  kids : Option (List Nat) := none
  deleted : Bool := false
  dead : Bool := false
deriving Repr

/-- `fetchItem` collapsed to its observable behaviour: a lookup returning the
item or `none` (the JS function returns `response.data` or `null` on any
error). -/
def Store := Nat → Option Item

/-- A node of the built comment tree: the spread `{...comment}` plus the
stamped `depth` and the optional `replies` field (`undefined` ⇔ `none`). -/
inductive CNode : Type where
  | mk (id : Nat) (type : Option String) (by_ : Option String) (time : Option Int)
       (score : Option Int) (text : Option String) (kids : Option (List Nat))
       (deleted : Bool) (dead : Bool) (depth : Nat)
       (replies : Option (List CNode)) : CNode
deriving Repr

def CNode.id : CNode → Nat
  | .mk i _ _ _ _ _ _ _ _ _ _ => i

def CNode.type : CNode → Option String
  | .mk _ t _ _ _ _ _ _ _ _ _ => t

def CNode.by_ : CNode → Option String
  | .mk _ _ b _ _ _ _ _ _ _ _ => b

def CNode.time : CNode → Option Int
  | .mk _ _ _ t _ _ _ _ _ _ _ => t

def CNode.score : CNode → Option Int
  | .mk _ _ _ _ s _ _ _ _ _ _ => s

def CNode.text : CNode → Option String
  | .mk _ _ _ _ _ t _ _ _ _ _ => t

def CNode.kids : CNode → Option (List Nat)
  | .mk _ _ _ _ _ _ k _ _ _ _ => k

def CNode.deleted : CNode → Bool
  | .mk _ _ _ _ _ _ _ d _ _ _ => d

def CNode.dead : CNode → Bool
  | .mk _ _ _ _ _ _ _ _ d _ _ => d

def CNode.depth : CNode → Nat
  | .mk _ _ _ _ _ _ _ _ _ d _ => d

def CNode.replies : CNode → Option (List CNode)
  | .mk _ _ _ _ _ _ _ _ _ _ r => r

/-- The sort key of the comparator `(b.score || 0) - (a.score || 0)`:
a missing score counts as `0` (and a present score of `0` is also `0`). -/
def key (c : CNode) : Int := c.score.getD 0

/-- Insert into a descending-by-`key` list, after all entries whose key is
`≥` the new one (the position a stable descending sort gives an element that
arrives later than the entries already placed). -/
def insertDesc (x : CNode) : List CNode → List CNode
  | [] => [x]
  | y :: ys => if key y < key x then x :: y :: ys else y :: insertDesc x ys

/-- `comments.sort((a, b) => (b.score || 0) - (a.score || 0))` —
`Array.prototype.sort` is stable, so it yields the unique permutation that is
non-increasing on `key` and keeps equal keys in input order; this
left-to-right insertion sort produces exactly that permutation. -/
def sortScoreDesc (l : List CNode) : List CNode :=
  l.foldl (fun acc x => insertDesc x acc) []

/-- The sibling order produced by the sort: non-increasing `key`. -/
def keyGE (a b : CNode) : Prop := key b ≤ key a

attribute [simp] CNode.id CNode.type CNode.by_ CNode.time CNode.score CNode.text
  CNode.kids CNode.deleted CNode.dead CNode.depth CNode.replies

mutual

/-- `fetchComments` of `src/utils.ts` (lines 34–84).  Reproduces the source:
the early return on `currentDepth >= maxDepth || commentIds.length === 0`, the
per-id builder mapped over `commentIds` (`Promise.all` keeps positional
order), the `filter(Boolean)` step, and the final descending sort by score.
`minScore` is threaded exactly as in the source.  The JS comparison
`currentDepth < maxDepth - 1` is written `currentDepth + 1 < maxDepth`, its
exact integer meaning. -/
def fetchComments (s : Store) (commentIds : List Nat) (maxDepth : Nat)
    (minScore : Int) (currentDepth : Nat) : List CNode :=
  if maxDepth ≤ currentDepth ∨ commentIds = [] then []
  else
    let comments := commentIds.map
      (fun id => buildNode s id maxDepth minScore currentDepth)
    let validComments := comments.filterMap (fun c => c)
    sortScoreDesc validComments
termination_by (maxDepth - currentDepth, 1)

/-- The per-id arrow function inside the `Promise.all` of `fetchComments`:
fetch the item, keep it only if it is a live comment, stamp `depth`, and —
when it has kids and `currentDepth < maxDepth - 1` — recurse on the first 10
kids and store the score-sorted result in `replies`. -/
def buildNode (s : Store) (id : Nat) (maxDepth : Nat) (minScore : Int)
    (currentDepth : Nat) : Option CNode :=
  match s id with
  | none => none
  | some comment =>
    if comment.type = some "comment" ∧ comment.deleted = false ∧
        comment.dead = false then
      if h : (comment.kids.getD []).length ≠ 0 ∧ currentDepth + 1 < maxDepth then
        let childComments := fetchComments s ((comment.kids.getD []).take 10)
          maxDepth minScore (currentDepth + 1)
        some (.mk comment.id comment.type comment.by_ comment.time comment.score
          comment.text comment.kids comment.deleted comment.dead currentDepth
          (some (sortScoreDesc childComments)))
      else
        some (.mk comment.id comment.type comment.by_ comment.time comment.score
          comment.text comment.kids comment.deleted comment.dead currentDepth
          none)
    else none
termination_by (maxDepth - currentDepth, 0)
decreasing_by
  all_goals simp only [Prod.lex_def]
  all_goals omega

end

/-- Depth discipline of a tree node built at depth `d` under `maxDepth = D`:
the node is stamped `d`, `d < D` (i.e. `depth ∈ [0, D-1]`), and every reply is
a node built at depth `d + 1`. -/
inductive DepthOK (D : Nat) : Nat → CNode → Prop where
  | mk {d : Nat} {c : CNode} :
      c.depth = d → d < D →
      (∀ rs, c.replies = some rs → ∀ x ∈ rs, DepthOK D (d + 1) x) →
      DepthOK D d c

/-- Every sibling sequence below the node (its `replies` list and,
recursively, those of its descendants) is ordered by non-increasing score. -/
inductive RepliesSorted : CNode → Prop where
  | mk {c : CNode} :
      (∀ rs, c.replies = some rs → rs.Pairwise keyGE) →
      (∀ rs, c.replies = some rs → ∀ x ∈ rs, RepliesSorted x) →
      RepliesSorted c

/-- The node and all its descendants are live comments: `type = "comment"`,
not `deleted`, not `dead`. -/
inductive ValidNode : CNode → Prop where
  | mk {c : CNode} :
      c.type = some "comment" → c.deleted = false → c.dead = false →
      (∀ rs, c.replies = some rs → ∀ x ∈ rs, ValidNode x) →
      ValidNode c

/-- Every `replies` list below the node has at most 10 entries (the
`kids.slice(0, 10)` fan-out cap on child expansion). -/
inductive FanoutCap : CNode → Prop where
  | mk {c : CNode} :
      (∀ rs, c.replies = some rs → rs.length ≤ 10) →
      (∀ rs, c.replies = some rs → ∀ x ∈ rs, FanoutCap x) →
      FanoutCap c

/-- Presence of the `replies` field, recursively: it is set exactly when the
fetched item had a non-empty `kids` list (copied into the node by the spread)
and `depth < maxDepth - 1`; otherwise it is absent (`none`), never an empty
list standing in for "no replies". -/
inductive RepliesIff (D : Nat) : CNode → Prop where
  | mk {c : CNode} :
      (c.replies.isSome = true ↔ ((c.kids.getD []).length ≠ 0 ∧ c.depth + 1 < D)) →
      (∀ rs, c.replies = some rs → ∀ x ∈ rs, RepliesIff D x) →
      RepliesIff D c

mutual

/-- Schedule-explicit variant of `fetchComments`: the completion order of a
level's concurrent lookups is `sch commentIds` (a permutation of the slot
indices `0 .. length-1`).  Each lookup writes only its own positional slot,
exactly the `Promise.all` contract; the slots are then read off in index
order.  Used to prove the completion order unobservable. -/
def fetchCommentsSched (sch : List Nat → List Nat) (s : Store)
    (commentIds : List Nat) (maxDepth : Nat) (minScore : Int)
    (currentDepth : Nat) : List CNode :=
  if maxDepth ≤ currentDepth ∨ commentIds = [] then []
  else
    let slots := (sch commentIds).foldl
      (fun slots k => slots.set k (commentIds[k]?.bind
        (fun id => buildNodeSched sch s id maxDepth minScore currentDepth)))
      (List.replicate commentIds.length none)
    sortScoreDesc (slots.filterMap (fun c => c))
termination_by (maxDepth - currentDepth, 1)

/-- The per-id builder of `fetchCommentsSched` (same arrow function as
`buildNode`, recursing through the scheduled evaluator). -/
def buildNodeSched (sch : List Nat → List Nat) (s : Store) (id : Nat)
    (maxDepth : Nat) (minScore : Int) (currentDepth : Nat) : Option CNode :=
  match s id with
  | none => none
  | some comment =>
    if comment.type = some "comment" ∧ comment.deleted = false ∧
        comment.dead = false then
      if h : (comment.kids.getD []).length ≠ 0 ∧ currentDepth + 1 < maxDepth then
        let childComments := fetchCommentsSched sch s
          ((comment.kids.getD []).take 10) maxDepth minScore (currentDepth + 1)
        some (.mk comment.id comment.type comment.by_ comment.time comment.score
          comment.text comment.kids comment.deleted comment.dead currentDepth
          (some (sortScoreDesc childComments)))
      else
        some (.mk comment.id comment.type comment.by_ comment.time comment.score
          comment.text comment.kids comment.deleted comment.dead currentDepth
          none)
    else none
termination_by (maxDepth - currentDepth, 0)
decreasing_by
  all_goals simp only [Prod.lex_def]
  all_goals omega

end

/-! ## The content retriever (`src/fetcher.ts`) -/

/-- An HTTP response as `Fetcher._fetch` observes it. -/
structure Resp where
  ok : Bool
  status : Nat
  body : String

/-- The network: what a `fetch(url, ...)` call would yield; `none` models the
call throwing (transport error). -/
def Net := String → Option Resp

/-- `RequestPayload` of `src/fetcher.ts`. -/
structure RequestPayload where
  url : String
  headers : List (String × String) := []
  max_length : Option Nat := none
  start_index : Option Nat := none

/-- A tool result `{content: [{type: 'text', text}], isError}`, with `content`
collapsed to the single text entry every `Fetcher` mode produces. -/
structure FetchResult where
  content : String
  isError : Bool

/-- Does `pat` occur as a contiguous subsequence? -/
def containsSeq (pat : List Char) : List Char → Bool
  | [] => pat.isEmpty
  | c :: rest => pat.isPrefixOf (c :: rest) || containsSeq pat rest

/-- Drop a leading `scheme://` (everything through the first `://`). -/
def dropSchemeAux : List Char → List Char
  | ':' :: '/' :: '/' :: rest => rest
  | _ :: rest => dropSchemeAux rest
  | [] => []

/-- The host part of a URL: what follows the scheme, up to the first
delimiter. -/
def hostOf (url : List Char) : List Char :=
  let afterScheme := if containsSeq [':', '/', '/'] url then dropSchemeAux url else url
  afterScheme.takeWhile (fun c => c ≠ '/' ∧ c ≠ ':' ∧ c ≠ '?' ∧ c ≠ '#')

/-- Split on `'.'` (dotted-quad parsing). -/
def splitDots : List Char → List (List Char)
  | [] => [[]]
  | '.' :: rest => [] :: splitDots rest
  | c :: rest =>
    match splitDots rest with
    | g :: gs => (c :: g) :: gs
    | [] => [[c]]

/-- Decimal digits to a number (`none` if empty or non-numeric). -/
def decDigits : List Char → Option Nat
  | l =>
    if l ≠ [] ∧ l.all Char.isDigit then
      some (l.foldl (fun n c => n * 10 + (c.toNat - 48)) 0)
    else none

/-- The textual non-public IPv4 ranges: loopback 127/8, private 10/8,
172.16/12 and 192.168/16, link-local 169.254/16, unspecified 0/8. -/
def isPrivateIPv4 (host : List Char) : Bool :=
  match (splitDots host).mapM decDigits with
  | some [a, b, c, d] =>
    decide (a ≤ 255 ∧ b ≤ 255 ∧ c ≤ 255 ∧ d ≤ 255 ∧
      (a = 127 ∨ a = 10 ∨ a = 0 ∨ (a = 172 ∧ 16 ≤ b ∧ b ≤ 31) ∨
        (a = 192 ∧ b = 168) ∨ (a = 169 ∧ b = 254)))
  | _ => false

/-- Modelled from the spec: the classifier of the external `private-ip`
dependency (`is_ip_private`, not part of this repository).  Per §4.3 of the
spec the gate must "resolve/classify the target URL's host; if it falls in a
private, loopback, link-local, or otherwise non-public address range, abort
immediately" — so this takes the URL `Fetcher._fetch` passes it, extracts the
host, and recognises the textual non-public IPv4 ranges, `localhost`, and the
IPv6 loopback/unique-local/link-local prefixes. -/
def is_ip_private (url : String) : Bool :=
  let host := hostOf url.data
  decide (host = "localhost".data ∨ host = "::1".data ∨
    "fe80:".data.isPrefixOf host ∨ "fc".data.isPrefixOf host ∨
    "fd".data.isPrefixOf host) || isPrivateIPv4 host

/-- `Fetcher.applyLengthLimits` (fetcher.ts lines 13–20): the guard
`startIndex >= text.length → ''`, then `text.substring(startIndex, end)` with
`end = Math.min(startIndex + maxLength, text.length)`. -/
def applyLengthLimits (text : List Char) (maxLength startIndex : Nat) :
    List Char :=
  if text.length ≤ startIndex then []
  else (text.take (min (startIndex + maxLength) text.length)).drop startIndex

/-- `applyLengthLimits` on `String`s (the modes call it on the body text). -/
def applyLengthLimitsS (text : String) (maxLength startIndex : Nat) : String :=
  String.mk (applyLengthLimits text.data maxLength startIndex)

/-- The spec's own description of the windowing step, for refinement: "the
output is the substring from `startIndex` up to `min(startIndex + maxLength,
length)`; if `startIndex ≥ length`, the output is the empty string." -/
def windowSpec (text : List Char) (startIndex maxLength : Nat) : List Char :=
  if startIndex ≥ text.length then []
  else (text.drop startIndex).take (min (startIndex + maxLength) text.length - startIndex)

/-- `Fetcher._fetch`: the security gate, then the single outbound request.
The second component is the effect log — the list of outbound requests
actually issued.  The gate throws before `fetch`, so a private URL issues
none; a thrown error is rethrown as `Failed to fetch <url>: <message>`. -/
def Fetcher._fetch (net : Net) (url : String) : Except String Resp × List String :=
  if is_ip_private url then
    (Except.error ("Failed to fetch " ++ url ++ ": Fetcher blocked an attempt to fetch a private IP " ++ url ++
      ". This is to prevent a security vulnerability where a local MCP could fetch privileged local IPs and exfiltrate data."), [])
  else
    match net url with
    | none => (Except.error ("Failed to fetch " ++ url ++ ": Unknown error"), [url])
    | some r =>
      if r.ok then (Except.ok r, [url])
      else (Except.error ("Failed to fetch " ++ url ++ ": HTTP error: " ++ toString r.status), [url])

/-- `Fetcher.html`: raw body, windowed. -/
def Fetcher.html (net : Net) (p : RequestPayload) : FetchResult × List String :=
  match Fetcher._fetch net p.url with
  | (Except.error msg, log) => (⟨msg, true⟩, log)
  | (Except.ok r, log) =>
    (⟨applyLengthLimitsS r.body (p.max_length.getD 5000) (p.start_index.getD 0),
      false⟩, log)

/-- `Fetcher.json`: parse and re-stringify the body (the
`JSON.parse`/`JSON.stringify` round trip is the external `jsonRoundtrip`
oracle, `Except.error` modelling a parse throw), then window. -/
def Fetcher.json (net : Net) (jsonRoundtrip : String → Except String String)
    (p : RequestPayload) : FetchResult × List String :=
  match Fetcher._fetch net p.url with
  | (Except.error msg, log) => (⟨msg, true⟩, log)
  | (Except.ok r, log) =>
    match jsonRoundtrip r.body with
    | Except.error msg => (⟨msg, true⟩, log)
    | Except.ok j =>
      (⟨applyLengthLimitsS j (p.max_length.getD 5000) (p.start_index.getD 0),
        false⟩, log)

/-- `Fetcher.txt`: DOM text extraction (jsdom, script/style removal and
whitespace collapse — the external `txtExtract` oracle), then window. -/
def Fetcher.txt (net : Net) (txtExtract : String → String)
    (p : RequestPayload) : FetchResult × List String :=
  match Fetcher._fetch net p.url with
  | (Except.error msg, log) => (⟨msg, true⟩, log)
  | (Except.ok r, log) =>
    (⟨applyLengthLimitsS (txtExtract r.body) (p.max_length.getD 5000)
      (p.start_index.getD 0), false⟩, log)

/-- `Fetcher.markdown`: DOM parsing, content-region selection and turndown
conversion (jsdom/turndown — the external `mdConvert` oracle, `Except.error`
modelling "No content element found" and similar throws), then window. -/
def Fetcher.markdown (net : Net) (mdConvert : String → Except String String)
    (p : RequestPayload) : FetchResult × List String :=
  match Fetcher._fetch net p.url with
  | (Except.error msg, log) => (⟨msg, true⟩, log)
  | (Except.ok r, log) =>
    match mdConvert r.body with
    | Except.error msg => (⟨msg, true⟩, log)
    | Except.ok md =>
      (⟨applyLengthLimitsS md (p.max_length.getD 5000) (p.start_index.getD 0),
        false⟩, log)

/-! ## Concrete stores for evaluations -/

/-- Item 1 is a live comment with score 0 and no kids. -/
def storeScore0 : Store := fun id =>
  if id = 1 then some { id := 1, type := some "comment", score := some 0 }
  else none

/-- Items 1–11 are live comments with distinct scores and no kids. -/
def storeEleven : Store := fun id =>
  if 1 ≤ id ∧ id ≤ 11 then
    some { id := id, type := some "comment", score := some (id : Int) }
  else none

/-- Item 1 is a live comment; item 2 is a deleted comment (tombstoned). -/
def storeTombstone : Store := fun id =>
  if id = 1 then some { id := 1, type := some "comment", score := some 3 }
  else if id = 2 then
    some { id := 2, type := some "comment", score := some 7, deleted := true }
  else none


/-! ## The renderer (`formatCommentsAsText`, utils.ts lines 89–141) and its
text-cleaning chain -/

/-- `String.prototype.replace(/pat/g, r)` for a literal pattern `pat` and a
single replacement character `r`: the leftmost non-overlapping occurrences are
replaced, scanning resumes after each replacement. -/
def replaceAllG (p : List Char) (r : Char) (t : List Char) : List Char :=
  match t with
  | [] => []
  | c :: rest =>
    if h : p ≠ [] ∧ p.isPrefixOf (c :: rest) then
      r :: replaceAllG p r ((c :: rest).drop p.length)
    else c :: replaceAllG p r rest
termination_by t.length
decreasing_by
  · have : p.length ≤ (c :: rest).length :=
      (List.isPrefixOf_iff_prefix.1 h.2).length_le
    have : 1 ≤ p.length := by
      cases p with
      | nil => exact absurd rfl h.1
      | cons _ _ => simp
    simp only [List.length_cons, List.length_drop]
    omega
  · simp

/-- `.replace(/&#x2F;/g, '/')` -/
def unescSlash : List Char → List Char := replaceAllG "&#x2F;".data '/'

/-- `.replace(/&#x27;/g, "'")` -/
def unescApos : List Char → List Char := replaceAllG "&#x27;".data '\''

/-- `.replace(/&quot;/g, '"')` -/
def unescQuot : List Char → List Char := replaceAllG "&quot;".data '"'

/-- `.replace(/&gt;/g, '>')` -/
def unescGt : List Char → List Char := replaceAllG "&gt;".data '>'

/-- `.replace(/&lt;/g, '<')` -/
def unescLt : List Char → List Char := replaceAllG "&lt;".data '<'

/-- The five entity replacements of `cleanText`, in source order. -/
def fiveUnescape (t : List Char) : List Char :=
  unescLt (unescGt (unescQuot (unescApos (unescSlash t))))

mutual

/-- `.replace(/<a href="[^"]*"[^>]*>/g, '')`.  The regex matches at a
position iff the literal prefix `<a href="` is followed somewhere by a `"`
and, after that first `"`, somewhere by a `>` (the starred classes cannot
cross their terminators); the whole span through that `>` is deleted.  On a
failed match the scan advances; since no later match can begin inside the
9-character literal prefix (matches start with `<`), the prefix is emitted
whole. -/
def stripAnchorOpen : List Char → List Char
  | '<' :: 'a' :: ' ' :: 'h' :: 'r' :: 'e' :: 'f' :: '=' :: '"' :: rest =>
    if ((rest.dropWhile (fun c => c ≠ '"')).drop 1).contains '>' then
      stripAnchorQ rest
    else '<' :: 'a' :: ' ' :: 'h' :: 'r' :: 'e' :: 'f' :: '=' :: '"' ::
      stripAnchorOpen rest
  | c :: rest => c :: stripAnchorOpen rest
  | [] => []

/-- Inside the `[^"]*` of the anchor pattern: consume through the first `"`. -/
def stripAnchorQ : List Char → List Char
  | '"' :: rest => stripAnchorG rest
  | _ :: rest => stripAnchorQ rest
  | [] => []

/-- Inside the `[^>]*` of the anchor pattern: consume through the first `>`. -/
def stripAnchorG : List Char → List Char
  | '>' :: rest => stripAnchorOpen rest
  | _ :: rest => stripAnchorG rest
  | [] => []

end

/-- `.replace(/<\/a>/g, '')` -/
def stripAnchorClose : List Char → List Char
  | '<' :: '/' :: 'a' :: '>' :: rest => stripAnchorClose rest
  | c :: rest => c :: stripAnchorClose rest
  | [] => []

mutual

/-- `.replace(/<[^>]*>/g, '')`: a `<` with some `>` after it opens a span
that is deleted through the first such `>`; a `<` with no later `>` never
matches and is kept. -/
def stripTags : List Char → List Char
  | '<' :: rest =>
    if rest.contains '>' then stripTagsSkip rest else '<' :: stripTags rest
  | c :: rest => c :: stripTags rest
  | [] => []

/-- Inside a `<...>` span: consume through the first `>`. -/
def stripTagsSkip : List Char → List Char
  | '>' :: rest => stripTags rest
  | _ :: rest => stripTagsSkip rest
  | [] => []

end

/-- The ASCII whitespace class of the regex `\s` (the Unicode space members
do not occur in the texts involved). -/
def isWsChar (c : Char) : Bool :=
  c = ' ' ∨ c = '\t' ∨ c = '\n' ∨ c = '\r' ∨ c = '\x0b' ∨ c = '\x0c'

mutual

/-- `.replace(/\n\s*\n/g, '\n\n')`: at a `\n` whose following maximal
whitespace run contains another `\n`, the greedy match extends through the
last `\n` of that run and is replaced by `"\n\n"`; scanning resumes after
it.  A `\n` whose run has no further `\n` does not match. -/
def collapseNl : List Char → List Char
  | '\n' :: rest =>
    if (rest.takeWhile isWsChar).contains '\n' then
      '\n' :: '\n' :: collapseNlSkip rest
    else '\n' :: collapseNl rest
  | c :: rest => c :: collapseNl rest
  | [] => []

/-- Inside a matched `\n\s*\n` span: drop whitespace until the last `\n` of
the run (the `\n` whose following run has no further `\n`), then resume. -/
def collapseNlSkip : List Char → List Char
  | '\n' :: rest =>
    if (rest.takeWhile isWsChar).contains '\n' then collapseNlSkip rest
    else collapseNl rest
  | _ :: rest => collapseNlSkip rest
  | [] => []

end

/-- `cleanText` of `formatComment` (utils.ts lines 111–120): the five entity
replacements, the anchor open/close tag removals, the generic tag removal,
and the blank-run collapse, in source order. -/
def cleanText (t : List Char) : List Char :=
  collapseNl (stripTags (stripAnchorClose (stripAnchorOpen (fiveUnescape t))))

/-- No complete tag span is left: no `<` in the list is followed (anywhere
later) by a `>`. -/
def tagFreeB : List Char → Bool
  | '<' :: rest => !rest.contains '>' && tagFreeB rest
  | _ :: rest => tagFreeB rest
  | [] => true

/-- Whitespace other than a newline. -/
def wsNoNl (c : Char) : Bool := isWsChar c && !(c = '\n')

/-- Does the list start with two newlines? -/
def startsTwoNl : List Char → Bool
  | '\n' :: '\n' :: _ => true
  | _ => false

/-- A `\n` here would start an uncollapsed blank run: either a nonempty run
of same-line whitespace leads straight to another `\n` (`"\n \n"`), or two
more newlines follow immediately (`"\n\n\n"`). -/
def blankRunAt (rest : List Char) : Bool :=
  (!(rest.takeWhile wsNoNl).isEmpty &&
    (rest.dropWhile wsNoNl).headD 'x' = '\n')
  || startsTwoNl rest

/-- Blank-line runs are collapsed: no `\n` starts the pattern
`\n⟨nonempty whitespace⟩\n` (in particular no three consecutive newlines). -/
def noBlankRunB : List Char → Bool
  | '\n' :: rest => !blankRunAt rest && noBlankRunB rest
  | _ :: rest => noBlankRunB rest
  | [] => true

/-- `String.prototype.split('\n')`. -/
def splitNl : List Char → List (List Char)
  | [] => [[]]
  | '\n' :: rest => [] :: splitNl rest
  | c :: rest =>
    match splitNl rest with
    | g :: gs => (c :: g) :: gs
    | [] => [[c]]

/-- `Array.prototype.join(sep)`. -/
def joinSep (sep : List Char) : List (List Char) → List Char
  | [] => []
  | [g] => g
  | g :: gs => g ++ sep ++ joinSep sep gs

/-- `'  '.repeat(depth)`. -/
def indentChars (depth : Nat) : List Char := List.replicate (2 * depth) ' '

/-- `depth === 0 ? 'ðŸ’¬' : 'â†³'.repeat(depth)` (the
characters exactly as they stand in the source file). -/
def depthIndicator (depth : Nat) : List Char :=
  if depth = 0 then "ðŸ’¬".data
  else (List.replicate depth "â†³".data).join

/-- `comment.score ? ` (${comment.score} points)` : ''` — a score of `0` is
falsy and yields no annotation. -/
def scoreText : Option Int → List Char
  | some sc => if sc = 0 then [] else " (".data ++ (toString sc).data ++ " points)".data
  | none => []

/-- `formatComment` of `formatCommentsAsText` (utils.ts lines 105–133): the
header line (indent, depth marker, author — `undefined` when absent, exactly
as the template literal renders it — and score), the cleaned body re-indented
line by line, then the recursively rendered replies at `depth + 1`. -/
def formatComment : CNode → Nat → List Char
  | CNode.mk _ _ by_ _ score text _ _ _ _ replies, depth =>
    let indent := indentChars depth
    let cleanT := cleanText (text.getD "").data
    let header := indent ++ depthIndicator depth ++ " **".data ++
      (by_.getD "undefined").data ++ "**".data ++ scoreText score ++ ['\n']
    let body := indent ++ "   ".data ++
      joinSep ('\n' :: indent ++ "   ".data) (splitNl cleanT) ++ ['\n', '\n']
    let repliesPart :=
      match replies with
      | some rs =>
        if rs.length > 0 then
          (rs.attach.map (fun x => formatComment x.1 (depth + 1))).join
        else []
      | none => []
    header ++ body ++ repliesPart
termination_by c _ => sizeOf c
decreasing_by
  have hx := List.sizeOf_lt_of_mem x.2
  simp only [CNode.mk.sizeOf_spec, Option.some.sizeOf_spec]
  omega

/-- `formatCommentsAsText` (utils.ts lines 89–141): header block, the
"no comments" line when the list is empty, otherwise each root comment's
block followed by a divider. -/
def formatCommentsAsText (comments : List CNode) (storyTitle : String)
    (storyId : Nat) (totalComments : Nat) : String :=
  let header := "# Hacker News Comments for Story ".data ++
    (toString storyId).data ++ ['\n'] ++
    "## \"".data ++ storyTitle.data ++ "\"\n".data ++
    "ðŸ“Š Total Comments: ".data ++ (toString totalComments).data ++
    " | Showing: ".data ++ (toString comments.length).data ++ ['\n', '\n']
  if comments.length = 0 then
    String.mk (header ++ "No comments found matching the criteria.\n".data)
  else
    String.mk (header ++ "---\n\n".data ++
      (comments.map (fun c => formatComment c 0 ++ "---\n\n".data)).join)


theorem insertDesc_perm (x : CNode) (l : List CNode) :
    (insertDesc x l).Perm (x :: l) := by
  induction l with
  | nil => simp [insertDesc]
  | cons y ys ih =>
    by_cases h : key y < key x
    · simp [insertDesc, h]
    · simp only [insertDesc, if_neg h]
      exact (ih.cons y).trans (List.Perm.swap x y ys)

theorem foldl_insertDesc_perm (l acc : List CNode) :
    (l.foldl (fun acc x => insertDesc x acc) acc).Perm (acc ++ l) := by
  induction l generalizing acc with
  | nil => simp
  | cons x xs ih =>
    simp only [List.foldl_cons]
    exact (ih (insertDesc x acc)).trans
      (((insertDesc_perm x acc).append_right xs).trans List.perm_middle.symm)

theorem sortScoreDesc_perm (l : List CNode) : (sortScoreDesc l).Perm l := by
  simpa using foldl_insertDesc_perm l []

theorem sortScoreDesc_length (l : List CNode) :
    (sortScoreDesc l).length = l.length :=
  (sortScoreDesc_perm l).length_eq

theorem mem_sortScoreDesc {c : CNode} {l : List CNode} :
    c ∈ sortScoreDesc l ↔ c ∈ l :=
  (sortScoreDesc_perm l).mem_iff

theorem pairwise_insertDesc {x : CNode} {l : List CNode}
    (h : l.Pairwise keyGE) : (insertDesc x l).Pairwise keyGE := by
  induction l with
  | nil => simp [insertDesc, keyGE]
  | cons y ys ih =>
    rcases List.pairwise_cons.1 h with ⟨hy, hys⟩
    simp only [insertDesc]
    by_cases hk : key y < key x
    · rw [if_pos hk]
      refine List.pairwise_cons.2 ⟨?_, h⟩
      intro z hz
      rcases List.mem_cons.1 hz with rfl | hz
      · exact le_of_lt hk
      · exact le_trans (hy _ hz) (le_of_lt hk)
    · rw [if_neg hk]
      refine List.pairwise_cons.2 ⟨?_, ih hys⟩
      intro z hz
      rcases List.mem_cons.1 ((insertDesc_perm x ys).mem_iff.1 hz) with rfl | hz
      · exact not_lt.1 hk
      · exact hy _ hz

theorem sortScoreDesc_pairwise (l : List CNode) :
    (sortScoreDesc l).Pairwise keyGE := by
  suffices h : ∀ acc : List CNode, acc.Pairwise keyGE →
      (l.foldl (fun acc x => insertDesc x acc) acc).Pairwise keyGE by
    exact h [] (by simp)
  induction l with
  | nil => exact fun acc h => h
  | cons x xs ih =>
    intro acc hacc
    exact ih (insertDesc x acc) (pairwise_insertDesc hacc)

/-- Stability of the insertion step on a sorted accumulator: the entries of a
given key keep their order, the new element joining at the end of its key
class. -/
theorem filter_insertDesc (k : Int) {l : List CNode} (x : CNode)
    (h : l.Pairwise keyGE) :
    (insertDesc x l).filter (fun c => key c = k)
      = if key x = k then l.filter (fun c => key c = k) ++ [x]
        else l.filter (fun c => key c = k) := by
  induction l with
  | nil => by_cases hx : key x = k <;> simp [insertDesc, hx]
  | cons y ys ih =>
    rcases List.pairwise_cons.1 h with ⟨hy, hys⟩
    simp only [insertDesc]
    by_cases hk : key y < key x
    · rw [if_pos hk]
      by_cases hx : key x = k
      · subst hx
        have hfilter : (y :: ys).filter (fun c => key c = key x) = [] := by
          rw [List.filter_eq_nil_iff]
          intro z hz
          have hzy : key z ≤ key y := by
            rcases List.mem_cons.1 hz with rfl | hz
            · exact le_refl _
            · exact hy _ hz
          simp only [decide_eq_true_eq]
          omega
        simp [List.filter_cons, hfilter]
      · rw [if_neg hx]
        simp [List.filter_cons, hx]
    · rw [if_neg hk]
      rw [List.filter_cons, List.filter_cons, ih hys]
      by_cases hyk : key y = k <;> by_cases hx : key x = k <;>
        simp [hyk, hx, List.filter_cons]

/-- Stability of the whole sort: for any key value, the entries carrying that
key appear in `sortScoreDesc l` exactly in the order they have in `l`. -/
theorem sortScoreDesc_filter_key (l : List CNode) (k : Int) :
    (sortScoreDesc l).filter (fun c => key c = k)
      = l.filter (fun c => key c = k) := by
  suffices h : ∀ acc : List CNode, acc.Pairwise keyGE →
      (l.foldl (fun acc x => insertDesc x acc) acc).filter (fun c => key c = k)
        = acc.filter (fun c => key c = k) ++ l.filter (fun c => key c = k) by
    simpa using h [] (by simp)
  induction l with
  | nil => intro acc _; simp
  | cons x xs ih =>
    intro acc hacc
    simp only [List.foldl_cons]
    rw [ih (insertDesc x acc) (pairwise_insertDesc hacc),
        filter_insertDesc k x hacc]
    by_cases hx : key x = k <;> simp [hx, List.filter_cons]

theorem fetchComments_eq (s : Store) (ids : List Nat) (md : Nat) (ms : Int)
    (d : Nat) (h : d < md) :
    fetchComments s ids md ms d
      = sortScoreDesc (ids.filterMap (fun id => buildNode s id md ms d)) := by
  rw [fetchComments]
  rcases eq_or_ne ids [] with rfl | hne
  · simp [sortScoreDesc]
  · rw [if_neg (by simp [hne]; omega)]
    simp only [List.filterMap_map, Function.comp]
    rfl

theorem fetchComments_stop (s : Store) (ids : List Nat) (md : Nat) (ms : Int)
    (d : Nat) (h : md ≤ d) : fetchComments s ids md ms d = [] := by
  rw [fetchComments, if_pos (Or.inl h)]

theorem fetchComments_length_le (s : Store) (ids : List Nat) (md : Nat)
    (ms : Int) (d : Nat) : (fetchComments s ids md ms d).length ≤ ids.length := by
  rcases lt_or_le d md with h | h
  · rw [fetchComments_eq s ids md ms d h, sortScoreDesc_length]
    exact List.length_filterMap_le _ _
  · simp [fetchComments_stop s ids md ms d h]

/-- Master invariant: everything `buildNode`/`fetchComments` guarantees about
each produced node, proved at once by induction on the remaining depth
budget. -/
theorem fetchComments_master :
    ∀ (n : Nat) (s : Store) (md : Nat) (ms : Int) (d : Nat), md ≤ d + n →
      ∀ (ids : List Nat), ∀ c ∈ fetchComments s ids md ms d,
        DepthOK md d c ∧ RepliesSorted c ∧ ValidNode c ∧ FanoutCap c ∧
          RepliesIff md c := by
  intro n
  induction n with
  | zero =>
    intro s md ms d hn ids c hc
    rw [fetchComments_stop s ids md ms d (by omega)] at hc
    exact absurd hc (List.not_mem_nil c)
  | succ n ih =>
    intro s md ms d hn ids c hc
    rcases lt_or_le d md with hd | hd
    · rw [fetchComments_eq s ids md ms d hd] at hc
      rcases List.mem_filterMap.1 (mem_sortScoreDesc.1 hc) with ⟨id, _, hbuild⟩
      rw [buildNode] at hbuild
      split at hbuild
      · exact absurd hbuild (by simp)
      · rename_i comment heq
        split at hbuild
        swap
        · exact absurd hbuild (by simp)
        rename_i hvalid
        split at hbuild
        · rename_i hkids
          simp only [Option.some.injEq] at hbuild
          subst hbuild
          have hchild : ∀ x ∈ sortScoreDesc (fetchComments s
              ((comment.kids.getD []).take 10) md ms (d + 1)),
              DepthOK md (d + 1) x ∧ RepliesSorted x ∧ ValidNode x ∧
                FanoutCap x ∧ RepliesIff md x := by
            intro x hx
            exact ih s md ms (d + 1) (by omega) _ x (mem_sortScoreDesc.1 hx)
          refine ⟨?_, ?_, ?_, ?_, ?_⟩
          · exact DepthOK.mk (by simp) hd
              (by intro rs hrs x hx
                  simp only [CNode.replies, Option.some.injEq] at hrs
                  subst hrs
                  exact (hchild x hx).1)
          · refine RepliesSorted.mk ?_ ?_
            · intro rs hrs
              simp only [CNode.replies, Option.some.injEq] at hrs
              subst hrs
              exact sortScoreDesc_pairwise _
            · intro rs hrs x hx
              simp only [CNode.replies, Option.some.injEq] at hrs
              subst hrs
              exact (hchild x hx).2.1
          · exact ValidNode.mk (by simp [hvalid.1]) (by simp [hvalid.2.1])
              (by simp [hvalid.2.2])
              (by intro rs hrs x hx
                  simp only [CNode.replies, Option.some.injEq] at hrs
                  subst hrs
                  exact (hchild x hx).2.2.1)
          · refine FanoutCap.mk ?_ ?_
            · intro rs hrs
              simp only [CNode.replies, Option.some.injEq] at hrs
              subst hrs
              rw [sortScoreDesc_length]
              calc (fetchComments s ((comment.kids.getD []).take 10) md ms
                    (d + 1)).length
                  ≤ ((comment.kids.getD []).take 10).length :=
                    fetchComments_length_le _ _ _ _ _
                _ ≤ 10 := by simp
            · intro rs hrs x hx
              simp only [CNode.replies, Option.some.injEq] at hrs
              subst hrs
              exact (hchild x hx).2.2.2.1
          · refine RepliesIff.mk ?_ ?_
            · simp only [CNode.replies, CNode.kids, CNode.depth]
              simpa using hkids
            · intro rs hrs x hx
              simp only [CNode.replies, Option.some.injEq] at hrs
              subst hrs
              exact (hchild x hx).2.2.2.2
        · rename_i hkids
          simp only [Option.some.injEq] at hbuild
          subst hbuild
          refine ⟨DepthOK.mk (by simp) hd (by simp),
            RepliesSorted.mk (by simp) (by simp),
            ValidNode.mk (by simp [hvalid.1]) (by simp [hvalid.2.1])
              (by simp [hvalid.2.2]) (by simp),
            FanoutCap.mk (by simp) (by simp),
            RepliesIff.mk ?_ (by simp)⟩
          simp only [CNode.replies, CNode.kids, CNode.depth]
          simpa using hkids
    · rw [fetchComments_stop s ids md ms d hd] at hc
      exact absurd hc (List.not_mem_nil c)

/-- Helper: `minScore` is dead: neither `fetchComments` nor `buildNode` ever
reads it, so any two thresholds give identical results. -/
theorem minScore_irrelevant :
    ∀ (n : Nat) (s : Store) (md : Nat) (ms ms' : Int) (d : Nat), md ≤ d + n →
      (∀ ids, fetchComments s ids md ms d = fetchComments s ids md ms' d)
      ∧ (∀ id, buildNode s id md ms d = buildNode s id md ms' d) := by
  intro n
  induction n with
  | zero =>
    intro s md ms ms' d hn
    constructor
    · intro ids
      rw [fetchComments_stop _ _ _ _ _ (by omega),
        fetchComments_stop _ _ _ _ _ (by omega)]
    · intro id
      rw [buildNode, buildNode]
      cases s id with
      | none => rfl
      | some comment =>
        simp only
        split
        · rw [dif_neg (fun hh => by omega), dif_neg (fun hh => by omega)]
        · rfl
  | succ n ih =>
    intro s md ms ms' d hn
    have hbuild : ∀ id, buildNode s id md ms d = buildNode s id md ms' d := by
      intro id
      rw [buildNode, buildNode]
      cases s id with
      | none => rfl
      | some comment =>
        simp only
        split
        · by_cases hk : (comment.kids.getD []).length ≠ 0 ∧ d + 1 < md
          · rw [dif_pos hk, dif_pos hk,
              (ih s md ms ms' (d + 1) (by omega)).1 ((comment.kids.getD []).take 10)]
          · rw [dif_neg hk, dif_neg hk]
        · rfl
    refine ⟨?_, hbuild⟩
    intro ids
    rcases lt_or_le d md with hd | hd
    · rw [fetchComments_eq _ _ _ _ _ hd, fetchComments_eq _ _ _ _ _ hd]
      congr 1
      simp only [hbuild]
    · rw [fetchComments_stop _ _ _ _ _ hd, fetchComments_stop _ _ _ _ _ hd]

/-- C1: the spec requires `minScore` to be a hard filter ("no node anywhere in
the returned tree has `score < M`"), and the tool schema documents `min_score`
as "Minimum score for comments to include" — but `fetchComments` only threads
the parameter and never compares it with a score.  Any two thresholds yield
identical trees, and at the failing input (item 1 a live comment with
score 0, `minScore = 5`) the returned tree contains a node of score `0 < 5`. -/
theorem c1_minScore_is_no_op :
    (∀ (s : Store) (ids : List Nat) (md : Nat) (ms ms' : Int) (d : Nat),
      fetchComments s ids md ms d = fetchComments s ids md ms' d)
    ∧ ∃ c ∈ fetchComments storeScore0 [1] 3 5 0, key c < 5 := by
  constructor
  · intro s ids md ms ms' d
    exact (minScore_irrelevant md s md ms ms' d (by omega)).1 ids
  · have heval : fetchComments storeScore0 [1] 3 5 0
        = [CNode.mk 1 (some "comment") none none (some 0) none none false false
            0 none] := by
      simp [fetchComments, buildNode, storeScore0, sortScoreDesc, insertDesc]
    rw [heval]
    exact ⟨_, List.mem_singleton.2 rfl, by simp [key]⟩

/-- C3 counterexample: the claim says the candidate list is truncated to 10
"at every recursion level including the root call", but neither
`fetchComments` nor its caller slices the root list (`getStoryComments`
passes `story.kids` whole): eleven root ids all produce root nodes. -/
theorem c3_root_fanout_uncapped :
    (fetchComments storeEleven [1, 2, 3, 4, 5, 6, 7, 8, 9, 10, 11] 1 0 0).length
      = 11 := by
  simp [fetchComments, buildNode, storeEleven, sortScoreDesc, insertDesc, key]

/-- C3 (amended): only child candidate lists are truncated (`kids.slice(0,
10)`) before fetching; every `replies` sibling sequence therefore has at most
10 nodes, while the root list is fetched in full. -/
theorem c3_child_fanout_capped (s : Store) (ids : List Nat) (md : Nat)
    (ms : Int) : ∀ c ∈ fetchComments s ids md ms 0, FanoutCap c :=
  fun c hc => (fetchComments_master md s md ms 0 (by omega) ids c hc).2.2.2.1

/-- C4: in a tree built with `maxDepth = D ≥ 1` from depth 0, every node's
depth lies in `[0, D-1]`, roots are stamped 0, and each reply level is its
parent's depth plus one. -/
theorem c4_depth_invariant (s : Store) (ids : List Nat) (D : Nat) (ms : Int)
    (hD : 1 ≤ D) : ∀ c ∈ fetchComments s ids D ms 0, DepthOK D 0 c :=
  fun c hc => (fetchComments_master D s D ms 0 (by omega) ids c hc).1

theorem c4_depth_invariant_witness :
    DepthOK 3 0 (CNode.mk 1 (some "comment") none none (some 0) none none
      false false 0 none) := by
  have heval : fetchComments storeScore0 [1] 3 5 0
      = [CNode.mk 1 (some "comment") none none (some 0) none none false false
          0 none] := by
    simp [fetchComments, buildNode, storeScore0, sortScoreDesc, insertDesc]
  refine c4_depth_invariant storeScore0 [1] 3 5 (by omega) _ ?_
  rw [heval]
  exact List.mem_singleton.2 rfl

/-- C5: every sibling sequence — the root list of any call and every `replies`
list anywhere in the tree — is ordered by non-increasing score (missing
scores count as 0). -/
theorem c5_siblings_sorted (s : Store) (ids : List Nat) (md : Nat) (ms : Int)
    (d : Nat) :
    (fetchComments s ids md ms d).Pairwise keyGE
    ∧ ∀ c ∈ fetchComments s ids md ms d, RepliesSorted c := by
  constructor
  · rcases lt_or_le d md with hd | hd
    · rw [fetchComments_eq _ _ _ _ _ hd]
      exact sortScoreDesc_pairwise _
    · rw [fetchComments_stop _ _ _ _ _ hd]
      exact List.Pairwise.nil
  · exact fun c hc => (fetchComments_master md s md ms d (by omega) ids c hc).2.1

/-- C6: no returned node (at any level) is deleted, dead or of non-comment
type, and an id whose lookup fails or yields a non-keepable item is dropped
silently: removing it from the candidate list leaves the result unchanged
(no placeholder, siblings unaffected). -/
theorem c6_tombstones_pruned (s : Store) (md : Nat) (ms : Int) (d : Nat) :
    (∀ (ids : List Nat), ∀ c ∈ fetchComments s ids md ms d, ValidNode c)
    ∧ (∀ (l1 l2 : List Nat) (x : Nat),
        (∀ it, s x = some it → ¬(it.type = some "comment" ∧
          it.deleted = false ∧ it.dead = false)) →
        fetchComments s (l1 ++ x :: l2) md ms d
          = fetchComments s (l1 ++ l2) md ms d) := by
  constructor
  · exact fun ids c hc =>
      (fetchComments_master md s md ms d (by omega) ids c hc).2.2.1
  · intro l1 l2 x hx
    rcases lt_or_le d md with hd | hd
    · rw [fetchComments_eq _ _ _ _ _ hd, fetchComments_eq _ _ _ _ _ hd]
      have hnone : buildNode s x md ms d = none := by
        rw [buildNode]
        split
        · rfl
        · rename_i it hsx
          rw [if_neg (hx it hsx)]
      congr 1
      rw [List.filterMap_append, List.filterMap_append]
      simp [List.filterMap_cons, hnone]
    · rw [fetchComments_stop _ _ _ _ _ hd, fetchComments_stop _ _ _ _ _ hd]

theorem c6_tombstones_pruned_witness :
    fetchComments storeTombstone [1, 2] 2 0 0
      = fetchComments storeTombstone [1] 2 0 0 := by
  refine (c6_tombstones_pruned storeTombstone 2 0 0).2 [1] [] 2 ?_
  intro it hit
  simp only [storeTombstone] at hit
  norm_num at hit
  rw [← hit]
  decide

/-- C10: the `replies` field of every returned node is present exactly when
the fetched item carried a non-empty `kids` list (copied into the node) and
the node's depth is `< maxDepth - 1`; otherwise the field is absent (`none`),
not an empty list — in particular with `maxDepth = 1` no node has it. -/
theorem c10_replies_presence (s : Store) (ids : List Nat) (md : Nat)
    (ms : Int) :
    (∀ c ∈ fetchComments s ids md ms 0, RepliesIff md c)
    ∧ (∀ c ∈ fetchComments s ids 1 ms 0, c.replies = none) := by
  constructor
  · exact fun c hc =>
      (fetchComments_master md s md ms 0 (by omega) ids c hc).2.2.2.2
  · intro c hc
    have h1 := (fetchComments_master 1 s 1 ms 0 (by omega) ids c hc).2.2.2.2
    cases h1 with
    | mk hiff _ =>
      have hno : ¬(c.replies.isSome = true) := by
        rw [hiff]
        rintro ⟨_, hlt⟩
        omega
      exact Option.not_isSome_iff_eq_none.1 hno

/-- C7: the windowing step returns the substring from `startIndex` up to
`min(startIndex + maxLength, length)`, the empty string when
`startIndex ≥ length`, and in particular `window("abcdefghij", 6, 3) = "ghi"`
and `window("abc", 5, 10) = ""`. -/
theorem c7_windowing (text : List Char) (startIndex maxLength : Nat) :
    applyLengthLimits text maxLength startIndex
      = windowSpec text startIndex maxLength
    ∧ (text.length ≤ startIndex →
        applyLengthLimits text maxLength startIndex = [])
    ∧ applyLengthLimits "abcdefghij".data 3 6 = "ghi".data
    ∧ applyLengthLimits "abc".data 10 5 = [] := by
  refine ⟨?_, ?_, by decide, by decide⟩
  · by_cases h : text.length ≤ startIndex
    · rw [applyLengthLimits, windowSpec, if_pos h, if_pos h]
    · rw [applyLengthLimits, windowSpec, if_neg h, if_neg h, List.drop_take]
  · intro h
    rw [applyLengthLimits, if_pos h]

theorem c7_windowing_witness : applyLengthLimits "abc".data 10 5 = [] :=
  (c7_windowing "abc".data 5 10).2.1 (by decide)

/-- C2: for every mode of the retriever, a URL the private-address classifier
flags is rejected before any network interaction: the result is
`isError: true` and the outbound-request log stays empty, whatever the
network and the parsing/conversion oracles would do. -/
theorem c2_security_gate (net : Net)
    (jsonRoundtrip : String → Except String String)
    (txtExtract : String → String)
    (mdConvert : String → Except String String)
    (p : RequestPayload) (h : is_ip_private p.url = true) :
    ((Fetcher.html net p).1.isError = true ∧ (Fetcher.html net p).2 = [])
    ∧ ((Fetcher.json net jsonRoundtrip p).1.isError = true
        ∧ (Fetcher.json net jsonRoundtrip p).2 = [])
    ∧ ((Fetcher.txt net txtExtract p).1.isError = true
        ∧ (Fetcher.txt net txtExtract p).2 = [])
    ∧ ((Fetcher.markdown net mdConvert p).1.isError = true
        ∧ (Fetcher.markdown net mdConvert p).2 = []) := by
  refine ⟨⟨?_, ?_⟩, ⟨?_, ?_⟩, ⟨?_, ?_⟩, ⟨?_, ?_⟩⟩ <;>
    simp [Fetcher.html, Fetcher.json, Fetcher.txt, Fetcher.markdown,
      Fetcher._fetch, h]

theorem c2_security_gate_witness :
    is_ip_private "http://127.0.0.1/admin" = true
    ∧ (Fetcher.markdown (fun _ => some ⟨true, 200, "<html></html>"⟩)
        (fun _ => Except.ok "converted")
        ⟨"http://127.0.0.1/admin", [], none, none⟩).1.isError = true
    ∧ (Fetcher.markdown (fun _ => some ⟨true, 200, "<html></html>"⟩)
        (fun _ => Except.ok "converted")
        ⟨"http://127.0.0.1/admin", [], none, none⟩).2 = [] :=
  ⟨by decide,
    (c2_security_gate (fun _ => some ⟨true, 200, "<html></html>"⟩)
      (fun _ => Except.ok "unused") (fun _ => "unused")
      (fun _ => Except.ok "converted")
      ⟨"http://127.0.0.1/admin", [], none, none⟩ (by decide)).2.2.2.1,
    (c2_security_gate (fun _ => some ⟨true, 200, "<html></html>"⟩)
      (fun _ => Except.ok "unused") (fun _ => "unused")
      (fun _ => Except.ok "converted")
      ⟨"http://127.0.0.1/admin", [], none, none⟩ (by decide)).2.2.2.2⟩

/-- Helper: after processing a set of slot writes in any order, a slot holds
the value written to it iff its index was scheduled; other slots keep their
initial content. -/
theorem foldl_set_getElem {α : Type} (g : Nat → α) (σ : List Nat)
    (init : List α) (k : Nat) :
    (σ.foldl (fun acc i => acc.set i (g i)) init)[k]?
      = if k ∈ σ ∧ k < init.length then some (g k) else init[k]? := by
  induction σ generalizing init with
  | nil => simp
  | cons i σ ih =>
    simp only [List.foldl_cons]
    rw [ih, List.length_set]
    by_cases hk : k ∈ σ ∧ k < init.length
    · rw [if_pos hk, if_pos ⟨List.mem_cons_of_mem i hk.1, hk.2⟩]
    · rw [if_neg hk]
      rw [List.getElem?_set]
      by_cases hik : i = k
      · subst hik
        by_cases hlen : i < init.length
        · rw [if_pos rfl, if_pos hlen, if_pos ⟨List.mem_cons_self i σ, hlen⟩]
        · rw [if_pos rfl, if_neg hlen, if_neg (fun hh => hlen hh.2),
            List.getElem?_eq_none (by omega)]
      · rw [if_neg hik]
        have : ¬(k ∈ i :: σ ∧ k < init.length) := by
          rintro ⟨hmem, hlen⟩
          rcases List.mem_cons.1 hmem with rfl | hmem
          · exact hik rfl
          · exact hk ⟨hmem, hlen⟩
        rw [if_neg this]

/-- Helper: running a level's slot writes under any schedule that is a
permutation of the slot indices fills every slot with its own lookup result:
the collected sequence is independent of the completion order. -/
theorem schedSlots_eq (f : Nat → Option CNode) (ids : List Nat)
    (σ : List Nat) (hσ : σ.Perm (List.range ids.length)) :
    σ.foldl (fun acc k => acc.set k (ids[k]?.bind f))
        (List.replicate ids.length none)
      = ids.map f := by
  apply List.ext_getElem?
  intro k
  rw [foldl_set_getElem (fun k => ids[k]?.bind f) σ _ k, List.length_replicate]
  have hmem : k ∈ σ ↔ k < ids.length := by
    rw [hσ.mem_iff, List.mem_range]
  by_cases hk : k < ids.length
  · rw [if_pos ⟨hmem.2 hk, hk⟩, List.getElem?_map,
      List.getElem?_eq_getElem hk]
    rfl
  · rw [if_neg (fun hh => hk hh.2), List.getElem?_replicate, if_neg hk,
      List.getElem?_eq_none (by rw [List.length_map]; omega)]

/-- Helper: under any valid schedule the scheduled evaluator coincides with
the sequential embedding (slot collection is order-insensitive). -/
theorem sched_eq_fetch :
    ∀ (n : Nat) (sch : List Nat → List Nat) (s : Store) (md : Nat) (ms : Int)
      (d : Nat), (∀ l, (sch l).Perm (List.range l.length)) → md ≤ d + n →
      (∀ ids, fetchCommentsSched sch s ids md ms d = fetchComments s ids md ms d)
      ∧ (∀ id, buildNodeSched sch s id md ms d = buildNode s id md ms d) := by
  intro n
  induction n with
  | zero =>
    intro sch s md ms d hsch hn
    constructor
    · intro ids
      rw [fetchCommentsSched, fetchComments]
      rw [if_pos (Or.inl (by omega)), if_pos (Or.inl (by omega))]
    · intro id
      rw [buildNodeSched, buildNode]
      cases s id with
      | none => rfl
      | some comment =>
        simp only
        split
        · rw [dif_neg (fun hh => by omega), dif_neg (fun hh => by omega)]
        · rfl
  | succ n ih =>
    intro sch s md ms d hsch hn
    have hbuild : ∀ id, buildNodeSched sch s id md ms d = buildNode s id md ms d := by
      intro id
      rw [buildNodeSched, buildNode]
      cases s id with
      | none => rfl
      | some comment =>
        simp only
        split
        · by_cases hk : (comment.kids.getD []).length ≠ 0 ∧ d + 1 < md
          · rw [dif_pos hk, dif_pos hk,
              (ih sch s md ms (d + 1) hsch (by omega)).1
                ((comment.kids.getD []).take 10)]
          · rw [dif_neg hk, dif_neg hk]
        · rfl
    refine ⟨?_, hbuild⟩
    intro ids
    rcases eq_or_ne ids [] with rfl | hne
    · rw [fetchCommentsSched, fetchComments]
      rw [if_pos (Or.inr rfl), if_pos (Or.inr rfl)]
    rcases lt_or_le d md with hd | hd
    · rw [fetchCommentsSched, if_neg (by simp [hne]; omega),
        fetchComments_eq _ _ _ _ _ hd]
      simp only [hbuild]
      rw [schedSlots_eq (fun id => buildNode s id md ms d) ids (sch ids)
        (hsch ids)]
      congr 1
      rw [List.filterMap_map]
      rfl
    · rw [fetchCommentsSched, fetchComments]
      rw [if_pos (Or.inl (by omega)), if_pos (Or.inl (by omega))]

/-- C9: with a fixed store, the built tree does not depend on the completion
order of the concurrent per-level lookups (results land in positional slots),
and the score sort is stable: within a sibling sequence, nodes of equal
(or equally missing) score appear in the order of the original candidate id
list. -/
theorem c9_schedule_independent_and_stable
    (sch1 sch2 : List Nat → List Nat) (s : Store) (ids : List Nat) (md : Nat)
    (ms : Int) (d : Nat)
    (h1 : ∀ l, (sch1 l).Perm (List.range l.length))
    (h2 : ∀ l, (sch2 l).Perm (List.range l.length))
    (hd : d < md) :
    fetchCommentsSched sch1 s ids md ms d = fetchCommentsSched sch2 s ids md ms d
    ∧ ∀ k : Int,
        (fetchCommentsSched sch1 s ids md ms d).filter (fun c => key c = k)
          = (ids.filterMap (fun id => buildNode s id md ms d)).filter
              (fun c => key c = k) := by
  rw [(sched_eq_fetch md sch1 s md ms d h1 (by omega)).1 ids,
    (sched_eq_fetch md sch2 s md ms d h2 (by omega)).1 ids]
  refine ⟨rfl, ?_⟩
  intro k
  rw [fetchComments_eq _ _ _ _ _ hd, sortScoreDesc_filter_key]

theorem c9_schedule_independent_and_stable_witness :
    fetchCommentsSched (fun l => List.range l.length) storeEleven [4, 5] 2 0 0
      = fetchCommentsSched (fun l => (List.range l.length).reverse) storeEleven
          [4, 5] 2 0 0 :=
  (c9_schedule_independent_and_stable (fun l => List.range l.length)
    (fun l => (List.range l.length).reverse) storeEleven [4, 5] 2 0 0
    (fun l => List.Perm.refl _) (fun l => List.reverse_perm _) (by omega)).1

theorem c3_child_fanout_capped_witness :
    FanoutCap (CNode.mk 1 (some "comment") none none (some 0) none none false
      false 0 none) := by
  have heval : fetchComments storeScore0 [1] 3 5 0
      = [CNode.mk 1 (some "comment") none none (some 0) none none false false
          0 none] := by
    simp [fetchComments, buildNode, storeScore0, sortScoreDesc, insertDesc]
  refine c3_child_fanout_capped storeScore0 [1] 3 5 _ ?_
  rw [heval]
  exact List.mem_singleton.2 rfl

theorem c5_siblings_sorted_witness :
    RepliesSorted (CNode.mk 1 (some "comment") none none (some 0) none none
      false false 0 none) := by
  have heval : fetchComments storeScore0 [1] 3 5 0
      = [CNode.mk 1 (some "comment") none none (some 0) none none false false
          0 none] := by
    simp [fetchComments, buildNode, storeScore0, sortScoreDesc, insertDesc]
  refine (c5_siblings_sorted storeScore0 [1] 3 5 0).2 _ ?_
  rw [heval]
  exact List.mem_singleton.2 rfl

theorem c10_replies_presence_witness :
    (CNode.mk 1 (some "comment") none none (some 0) none none false false 0
      none).replies = none := by
  have heval : fetchComments storeScore0 [1] 1 0 0
      = [CNode.mk 1 (some "comment") none none (some 0) none none false false
          0 none] := by
    simp [fetchComments, buildNode, storeScore0, sortScoreDesc, insertDesc]
  refine (c10_replies_presence storeScore0 [1] 1 0).2 _ ?_
  rw [heval]
  exact List.mem_singleton.2 rfl

/-- Helper: a nonempty pattern avoiding the replacement character cannot
become a prefix of the output unless it was a prefix of the input. -/
theorem replaceAllG_not_prefix (p : List Char) (r : Char) :
    ∀ (n : Nat) (t q : List Char), t.length ≤ n → q ≠ [] → r ∉ q →
      ¬ q <+: t → ¬ q <+: replaceAllG p r t := by
  intro n
  induction n with
  | zero =>
    intro t q hn hq hr hpre
    have : t = [] := List.length_eq_zero.1 (by omega)
    subst this
    rw [replaceAllG]
    exact hpre
  | succ n ih =>
    intro t q hn hq hr hpre
    match t with
    | [] => rw [replaceAllG]; exact hpre
    | c :: rest =>
      rw [replaceAllG]
      split
      · rename_i h
        intro hcon
        rcases q with _ | ⟨qc, q'⟩
        · exact hq rfl
        · rcases List.cons_prefix_cons.1 hcon with ⟨rfl, _⟩
          exact hr (List.mem_cons_self _ _)
      · rename_i h
        intro hcon
        rcases q with _ | ⟨qc, q'⟩
        · exact hq rfl
        · rcases List.cons_prefix_cons.1 hcon with ⟨rfl, hq'⟩
          rcases eq_or_ne q' [] with rfl | hq'ne
          · exact hpre (by simp)
          · have hq'pre : ¬ q' <+: rest := by
              intro hc
              exact hpre (List.cons_prefix_cons.2 ⟨rfl, hc⟩)
            exact ih rest q' (by simp at hn ⊢; omega) hq'ne
              (fun hm => hr (List.mem_cons_of_mem _ hm)) hq'pre hq'

/-- Helper: a nonempty pattern avoiding the replacement character occurs in
the output only if it occurred in the input (segments between replacements
are input segments, and the replacement character fences them). -/
theorem replaceAllG_not_infix (p : List Char) (r : Char) :
    ∀ (n : Nat) (t q : List Char), t.length ≤ n → q ≠ [] → r ∉ q →
      ¬ q <:+: t → ¬ q <:+: replaceAllG p r t := by
  intro n
  induction n with
  | zero =>
    intro t q hn hq hr hinf
    have : t = [] := List.length_eq_zero.1 (by omega)
    subst this
    rw [replaceAllG]
    exact hinf
  | succ n ih =>
    intro t q hn hq hr hinf
    match t with
    | [] => rw [replaceAllG]; exact hinf
    | c :: rest =>
      rw [replaceAllG]
      split
      · rename_i h
        rw [List.infix_cons_iff]
        rintro (hpre | hinf')
        · rcases q with _ | ⟨qc, q'⟩
          · exact hq rfl
          · rcases List.cons_prefix_cons.1 hpre with ⟨rfl, _⟩
            exact hr (List.mem_cons_self _ _)
        · have hdrop : ¬ q <:+: (c :: rest).drop p.length := by
            intro hc
            exact hinf (hc.trans (List.drop_suffix _ _).isInfix)
          have hlen : ((c :: rest).drop p.length).length ≤ n := by
            have hp : 1 ≤ p.length := by
              cases p with
              | nil => exact absurd rfl h.1
              | cons _ _ => simp
            simp only [List.length_drop, List.length_cons]
            simp only [List.length_cons] at hn
            omega
          exact ih _ q hlen hq hr hdrop hinf'
      · rename_i h
        rw [List.infix_cons_iff]
        rintro (hpre | hinf')
        · have hnp : ¬ q <+: (c :: rest) := fun hc => hinf hc.isInfix
          have hout := replaceAllG_not_prefix p r (n + 1) (c :: rest) q hn hq
            hr hnp
          apply hout
          rw [replaceAllG, dif_neg h]
          exact hpre
        · exact ih rest q (by simp at hn ⊢; omega) hq hr
            (fun hc => hinf (hc.trans (List.suffix_cons c rest).isInfix)) hinf'

/-- Helper: after a global replacement whose replacement character does not
occur in the pattern, no occurrence of the pattern is left. -/
theorem replaceAllG_self_free (p : List Char) (r : Char) (hp : p ≠ [])
    (hr : r ∉ p) :
    ∀ (n : Nat) (t : List Char), t.length ≤ n →
      ¬ p <:+: replaceAllG p r t := by
  intro n
  induction n with
  | zero =>
    intro t hn
    have : t = [] := List.length_eq_zero.1 (by omega)
    subst this
    rw [replaceAllG]
    intro hc
    exact hp (List.eq_nil_of_infix_nil hc)
  | succ n ih =>
    intro t hn
    match t with
    | [] =>
      rw [replaceAllG]
      intro hc
      exact hp (List.eq_nil_of_infix_nil hc)
    | c :: rest =>
      rw [replaceAllG]
      split
      · rename_i h
        rw [List.infix_cons_iff]
        rintro (hpre | hinf')
        · rcases p with _ | ⟨pc, p'⟩
          · exact hp rfl
          · rcases List.cons_prefix_cons.1 hpre with ⟨rfl, _⟩
            exact hr (List.mem_cons_self _ _)
        · have hlen : ((c :: rest).drop p.length).length ≤ n := by
            have hp1 : 1 ≤ p.length := by
              cases p with
              | nil => exact absurd rfl hp
              | cons _ _ => simp
            simp only [List.length_drop, List.length_cons]
            simp only [List.length_cons] at hn
            omega
          exact ih _ hlen hinf'
      · rename_i h
        rw [List.infix_cons_iff]
        rintro (hpre | hinf')
        · have hnpre : ¬ p.isPrefixOf (c :: rest) := fun hc => h ⟨hp, hc⟩
          rcases p with _ | ⟨pc, p'⟩
          · exact hp rfl
          · rcases List.cons_prefix_cons.1 hpre with ⟨rfl, hp'⟩
            rcases eq_or_ne p' [] with rfl | hp'ne
            · exact hnpre (List.isPrefixOf_iff_prefix.2 (by simp))
            · have hnp' : ¬ p' <+: rest := by
                intro hc
                exact hnpre (List.isPrefixOf_iff_prefix.2
                  (List.cons_prefix_cons.2 ⟨rfl, hc⟩))
              exact replaceAllG_not_prefix (pc :: p') r n rest p'
                (by simp at hn ⊢; omega) hp'ne
                (fun hm => hr (List.mem_cons_of_mem _ hm)) hnp' hp'
        · exact ih rest (by simp at hn ⊢; omega) hinf'

theorem replaceAllG_self_free' (p : List Char) (r : Char) (hp : p ≠ [])
    (hr : r ∉ p) (t : List Char) : ¬ p <:+: replaceAllG p r t :=
  replaceAllG_self_free p r hp hr t.length t le_rfl

theorem replaceAllG_not_infix' (p : List Char) (r : Char) (q t : List Char)
    (hq : q ≠ []) (hr : r ∉ q) (h : ¬ q <:+: t) :
    ¬ q <:+: replaceAllG p r t :=
  replaceAllG_not_infix p r t.length t q le_rfl hq hr h

/-- Helper: after the five sequential entity replacements none of the five
entity spellings remains anywhere in the text: each stage removes all
occurrences of its own entity, and no stage can recreate an earlier one
because the replacement characters `/ ' " > <` occur in none of the five
spellings. -/
theorem fiveUnescape_entity_free (t : List Char) :
    ¬ "&#x2F;".data <:+: fiveUnescape t ∧ ¬ "&#x27;".data <:+: fiveUnescape t
    ∧ ¬ "&quot;".data <:+: fiveUnescape t ∧ ¬ "&gt;".data <:+: fiveUnescape t
    ∧ ¬ "&lt;".data <:+: fiveUnescape t := by
  unfold fiveUnescape unescSlash unescApos unescQuot unescGt unescLt
  set u1 := replaceAllG "&#x2F;".data '/' t with hu1
  have h1a : ¬ "&#x2F;".data <:+: u1 :=
    replaceAllG_self_free' _ _ (by decide) (by decide) t
  set u2 := replaceAllG "&#x27;".data '\'' u1 with hu2
  have h2a : ¬ "&#x2F;".data <:+: u2 :=
    replaceAllG_not_infix' _ _ _ _ (by decide) (by decide) h1a
  have h2b : ¬ "&#x27;".data <:+: u2 :=
    replaceAllG_self_free' _ _ (by decide) (by decide) u1
  set u3 := replaceAllG "&quot;".data '"' u2 with hu3
  have h3a : ¬ "&#x2F;".data <:+: u3 :=
    replaceAllG_not_infix' _ _ _ _ (by decide) (by decide) h2a
  have h3b : ¬ "&#x27;".data <:+: u3 :=
    replaceAllG_not_infix' _ _ _ _ (by decide) (by decide) h2b
  have h3c : ¬ "&quot;".data <:+: u3 :=
    replaceAllG_self_free' _ _ (by decide) (by decide) u2
  set u4 := replaceAllG "&gt;".data '>' u3 with hu4
  have h4a : ¬ "&#x2F;".data <:+: u4 :=
    replaceAllG_not_infix' _ _ _ _ (by decide) (by decide) h3a
  have h4b : ¬ "&#x27;".data <:+: u4 :=
    replaceAllG_not_infix' _ _ _ _ (by decide) (by decide) h3b
  have h4c : ¬ "&quot;".data <:+: u4 :=
    replaceAllG_not_infix' _ _ _ _ (by decide) (by decide) h3c
  have h4d : ¬ "&gt;".data <:+: u4 :=
    replaceAllG_self_free' _ _ (by decide) (by decide) u3
  exact ⟨replaceAllG_not_infix' _ _ _ _ (by decide) (by decide) h4a,
    replaceAllG_not_infix' _ _ _ _ (by decide) (by decide) h4b,
    replaceAllG_not_infix' _ _ _ _ (by decide) (by decide) h4c,
    replaceAllG_not_infix' _ _ _ _ (by decide) (by decide) h4d,
    replaceAllG_self_free' _ _ (by decide) (by decide) u4⟩

theorem stripTags_cons_lt (l : List Char) :
    stripTags ('<' :: l)
      = if l.contains '>' then stripTagsSkip l else '<' :: stripTags l := rfl

theorem stripTags_cons_ne {c : Char} (hc : c ≠ '<') (l : List Char) :
    stripTags (c :: l) = c :: stripTags l := by
  rw [stripTags.eq_def]
  split
  · rename_i x rest heq
    injection heq with h1 _
    exact absurd h1 hc
  · rename_i x cc rest hne heq
    injection heq with h1 h2
    subst h1; subst h2; rfl
  · rename_i x heq
    simp at heq

theorem stripTagsSkip_cons_gt (l : List Char) :
    stripTagsSkip ('>' :: l) = stripTags l := rfl

theorem stripTagsSkip_cons_ne {c : Char} (hc : c ≠ '>') (l : List Char) :
    stripTagsSkip (c :: l) = stripTagsSkip l := by
  rw [stripTagsSkip.eq_def]
  split
  · rename_i x rest heq
    injection heq with h1 _
    exact absurd h1 hc
  · rename_i x cc rest hne heq
    injection heq with h1 h2
    subst h1; subst h2; rfl
  · rename_i x heq
    simp at heq

theorem collapseNl_cons_nl (l : List Char) :
    collapseNl ('\n' :: l)
      = if (l.takeWhile isWsChar).contains '\n' then
          '\n' :: '\n' :: collapseNlSkip l
        else '\n' :: collapseNl l := rfl

theorem collapseNl_cons_ne {c : Char} (hc : c ≠ '\n') (l : List Char) :
    collapseNl (c :: l) = c :: collapseNl l := by
  rw [collapseNl.eq_def]
  split
  · rename_i x rest heq
    injection heq with h1 _
    exact absurd h1 hc
  · rename_i x cc rest hne heq
    injection heq with h1 h2
    subst h1; subst h2; rfl
  · rename_i x heq
    simp at heq

theorem collapseNlSkip_cons_nl (l : List Char) :
    collapseNlSkip ('\n' :: l)
      = if (l.takeWhile isWsChar).contains '\n' then collapseNlSkip l
        else collapseNl l := rfl

theorem collapseNlSkip_cons_ne {c : Char} (hc : c ≠ '\n') (l : List Char) :
    collapseNlSkip (c :: l) = collapseNlSkip l := by
  rw [collapseNlSkip.eq_def]
  split
  · rename_i x rest heq
    injection heq with h1 _
    exact absurd h1 hc
  · rename_i x cc rest hne heq
    injection heq with _ h2
    subst h2; rfl
  · rename_i x heq
    simp at heq

theorem tagFreeB_cons_lt (l : List Char) :
    tagFreeB ('<' :: l) = (!l.contains '>' && tagFreeB l) := rfl

theorem tagFreeB_cons_ne {c : Char} (hc : c ≠ '<') (l : List Char) :
    tagFreeB (c :: l) = tagFreeB l := by
  rw [tagFreeB.eq_def]
  split
  · rename_i x rest heq
    injection heq with h1 _
    exact absurd h1 hc
  · rename_i x cc rest hne heq
    injection heq with _ h2
    subst h2; rfl
  · rename_i x heq
    simp at heq

theorem noBlankRunB_cons_nl (l : List Char) :
    noBlankRunB ('\n' :: l) = (!blankRunAt l && noBlankRunB l) := rfl

theorem noBlankRunB_cons_ne {c : Char} (hc : c ≠ '\n') (l : List Char) :
    noBlankRunB (c :: l) = noBlankRunB l := by
  rw [noBlankRunB.eq_def]
  split
  · rename_i x rest heq
    injection heq with h1 _
    exact absurd h1 hc
  · rename_i x cc rest hne heq
    injection heq with _ h2
    subst h2; rfl
  · rename_i x heq
    simp at heq

/-- Helper: the tag strippers emit only input characters. -/
theorem stripTags_subset :
    ∀ (n : Nat) (l : List Char), l.length ≤ n →
      (∀ c ∈ stripTags l, c ∈ l) ∧ (∀ c ∈ stripTagsSkip l, c ∈ l) := by
  intro n
  induction n with
  | zero =>
    intro l hn
    have : l = [] := List.length_eq_zero.1 (by omega)
    subst this
    exact ⟨(fun c hc => by cases hc), (fun c hc => by cases hc)⟩
  | succ n ih =>
    intro l hn
    match l with
    | [] => exact ⟨(fun c hc => by cases hc), (fun c hc => by cases hc)⟩
    | a :: rest =>
      have hrest := ih rest (by simp at hn; omega)
      constructor
      · intro c hc
        by_cases ha : a = '<'
        · subst ha
          rw [stripTags_cons_lt] at hc
          split at hc
          · exact List.mem_cons_of_mem _ (hrest.2 c hc)
          · rcases List.mem_cons.1 hc with rfl | hc
            · exact List.mem_cons_self _ _
            · exact List.mem_cons_of_mem _ (hrest.1 c hc)
        · rw [stripTags_cons_ne ha] at hc
          rcases List.mem_cons.1 hc with rfl | hc
          · exact List.mem_cons_self _ _
          · exact List.mem_cons_of_mem _ (hrest.1 c hc)
      · intro c hc
        by_cases ha : a = '>'
        · subst ha
          rw [stripTagsSkip_cons_gt] at hc
          exact List.mem_cons_of_mem _ (hrest.1 c hc)
        · rw [stripTagsSkip_cons_ne ha] at hc
          exact List.mem_cons_of_mem _ (hrest.2 c hc)

/-- Helper: the blank-run collapse emits only input characters and newlines. -/
theorem collapseNl_subset :
    ∀ (n : Nat) (l : List Char) (c : Char), l.length ≤ n → c ≠ '\n' →
      (c ∈ collapseNl l → c ∈ l) ∧ (c ∈ collapseNlSkip l → c ∈ l) := by
  intro n
  induction n with
  | zero =>
    intro l c hn hc
    have : l = [] := List.length_eq_zero.1 (by omega)
    subst this
    exact ⟨(fun hm => by cases hm), (fun hm => by cases hm)⟩
  | succ n ih =>
    intro l c hn hc
    match l with
    | [] => exact ⟨(fun hm => by cases hm), (fun hm => by cases hm)⟩
    | a :: rest =>
      have hrest := ih rest c (by simp at hn; omega) hc
      constructor
      · intro hm
        by_cases ha : a = '\n'
        · subst ha
          rw [collapseNl_cons_nl] at hm
          split at hm
          · rcases List.mem_cons.1 hm with rfl | hm
            · exact absurd rfl hc
            · rcases List.mem_cons.1 hm with rfl | hm
              · exact absurd rfl hc
              · exact List.mem_cons_of_mem _ (hrest.2 hm)
          · rcases List.mem_cons.1 hm with rfl | hm
            · exact absurd rfl hc
            · exact List.mem_cons_of_mem _ (hrest.1 hm)
        · rw [collapseNl_cons_ne ha] at hm
          rcases List.mem_cons.1 hm with rfl | hm
          · exact List.mem_cons_self _ _
          · exact List.mem_cons_of_mem _ (hrest.1 hm)
      · intro hm
        by_cases ha : a = '\n'
        · subst ha
          rw [collapseNlSkip_cons_nl] at hm
          split at hm
          · exact List.mem_cons_of_mem _ (hrest.2 hm)
          · exact List.mem_cons_of_mem _ (hrest.1 hm)
        · rw [collapseNlSkip_cons_ne ha] at hm
          exact List.mem_cons_of_mem _ (hrest.2 hm)

theorem tagFreeB_tail {a : Char} {l : List Char}
    (h : tagFreeB (a :: l) = true) : tagFreeB l = true := by
  by_cases ha : a = '<'
  · subst ha
    rw [tagFreeB_cons_lt, Bool.and_eq_true] at h
    exact h.2
  · rwa [tagFreeB_cons_ne ha] at h

/-- Helper: the generic tag removal leaves no `<` that is later followed by a
`>`. -/
theorem stripTags_tagFree :
    ∀ (n : Nat) (l : List Char), l.length ≤ n →
      tagFreeB (stripTags l) = true ∧ tagFreeB (stripTagsSkip l) = true := by
  intro n
  induction n with
  | zero =>
    intro l hn
    have : l = [] := List.length_eq_zero.1 (by omega)
    subst this
    exact ⟨rfl, rfl⟩
  | succ n ih =>
    intro l hn
    match l with
    | [] => exact ⟨rfl, rfl⟩
    | a :: rest =>
      have hrest := ih rest (by simp at hn; omega)
      constructor
      · by_cases ha : a = '<'
        · subst ha
          rw [stripTags_cons_lt]
          split
          · exact hrest.2
          · rename_i hcont
            rw [tagFreeB_cons_lt, Bool.and_eq_true]
            refine ⟨?_, hrest.1⟩
            have hsub := (stripTags_subset rest.length rest le_rfl).1
            simp only [Bool.not_eq_true']
            rw [← Bool.not_eq_true]
            intro hcon2
            exact hcont (List.elem_eq_true_of_mem
              (hsub '>' (List.elem_iff.1 hcon2)))
        · rw [stripTags_cons_ne ha, tagFreeB_cons_ne ha]
          exact hrest.1
      · by_cases ha : a = '>'
        · subst ha
          rw [stripTagsSkip_cons_gt]
          exact hrest.1
        · rw [stripTagsSkip_cons_ne ha]
          exact hrest.2

/-- Helper: the blank-run collapse cannot create a tag span. -/
theorem collapseNl_tagFree :
    ∀ (n : Nat) (l : List Char), l.length ≤ n →
      (tagFreeB l = true → tagFreeB (collapseNl l) = true)
      ∧ (tagFreeB l = true → tagFreeB (collapseNlSkip l) = true) := by
  intro n
  induction n with
  | zero =>
    intro l hn
    have : l = [] := List.length_eq_zero.1 (by omega)
    subst this
    exact ⟨fun _ => rfl, fun _ => rfl⟩
  | succ n ih =>
    intro l hn
    match l with
    | [] => exact ⟨fun _ => rfl, fun _ => rfl⟩
    | a :: rest =>
      have hrest := ih rest (by simp at hn; omega)
      constructor
      · intro hfree
        have hfrest : tagFreeB rest = true := tagFreeB_tail hfree
        by_cases ha : a = '\n'
        · subst ha
          rw [collapseNl_cons_nl]
          split
          · rw [tagFreeB_cons_ne (by decide), tagFreeB_cons_ne (by decide)]
            exact hrest.2 hfrest
          · rw [tagFreeB_cons_ne (by decide)]
            exact hrest.1 hfrest
        · rw [collapseNl_cons_ne ha]
          by_cases hlt : a = '<'
          · subst hlt
            rw [tagFreeB_cons_lt, Bool.and_eq_true]
            rw [tagFreeB_cons_lt, Bool.and_eq_true] at hfree
            refine ⟨?_, hrest.1 hfree.2⟩
            simp only [Bool.not_eq_true']
            rw [← Bool.not_eq_true]
            intro hcon
            have hmem : '>' ∈ rest :=
              ((collapseNl_subset rest.length rest '>' le_rfl (by decide)).1
                (List.elem_iff.1 hcon))
            have hcontains : rest.contains '>' = true :=
              List.elem_eq_true_of_mem hmem
            have := hfree.1
            simp only [Bool.not_eq_true'] at this
            rw [this] at hcontains
            cases hcontains
          · rw [tagFreeB_cons_ne hlt]
            exact hrest.1 hfrest
      · intro hfree
        have hfrest : tagFreeB rest = true := tagFreeB_tail hfree
        by_cases ha : a = '\n'
        · subst ha
          rw [collapseNlSkip_cons_nl]
          split
          · exact hrest.2 hfrest
          · exact hrest.1 hfrest
        · rw [collapseNlSkip_cons_ne ha]
          exact hrest.2 hfrest

/-- Helper: the cleaned body never has a `<` that is later followed by `>`:
the final generic tag removal guarantees it and the blank-run collapse
preserves it. -/
theorem cleanText_tagFree (t : List Char) : tagFreeB (cleanText t) = true := by
  unfold cleanText
  set w := stripAnchorClose (stripAnchorOpen (fiveUnescape t))
  exact (collapseNl_tagFree (stripTags w).length (stripTags w) le_rfl).1
    (stripTags_tagFree w.length w le_rfl).1

theorem startsTwoNl_eq_false {l : List Char}
    (h : ∀ b r, l = '\n' :: b :: r → b ≠ '\n') : startsTwoNl l = false := by
  rw [startsTwoNl.eq_def]
  split
  · rename_i r
    exact absurd rfl (h '\n' r rfl)
  · rfl

/-- Helper: single-line whitespace passes through the collapse untouched. -/
theorem collapseNl_ws_prefix :
    ∀ (a l : List Char), (∀ c ∈ a, wsNoNl c = true) →
      collapseNl (a ++ l) = a ++ collapseNl l := by
  intro a
  induction a with
  | nil => intro l _; rfl
  | cons c a' ih =>
    intro l ha
    have hc : wsNoNl c = true := ha c (List.mem_cons_self _ _)
    have hcne : c ≠ '\n' := by
      intro hcc
      subst hcc
      simp [wsNoNl] at hc
    rw [List.cons_append, collapseNl_cons_ne hcne,
      ih l (fun d hd => ha d (List.mem_cons_of_mem _ hd))]
    rfl

theorem dropWhile_headD_false (P : Char → Bool) :
    ∀ (l : List Char) (d : Char),
      l.dropWhile P = [] ∨ P ((l.dropWhile P).headD d) = false := by
  intro l d
  induction l with
  | nil => exact Or.inl rfl
  | cons c rest ih =>
    rw [List.dropWhile_cons]
    by_cases hc : P c = true
    · rw [if_pos hc]; exact ih
    · rw [if_neg hc]
      right
      simpa using hc

theorem takeWhile_append_all (P : Char → Bool) :
    ∀ (a l : List Char), (∀ c ∈ a, P c = true) →
      (a ++ l).takeWhile P = a ++ l.takeWhile P
      ∧ (a ++ l).dropWhile P = l.dropWhile P := by
  intro a
  induction a with
  | nil => intro l _; exact ⟨rfl, rfl⟩
  | cons c a' ih =>
    intro l ha
    have hc : P c = true := ha c (List.mem_cons_self _ _)
    have hrec := ih l (fun d hd => ha d (List.mem_cons_of_mem _ hd))
    rw [List.cons_append, List.takeWhile_cons, List.dropWhile_cons,
      if_pos hc, if_pos hc, hrec.1, hrec.2]
    exact ⟨rfl, rfl⟩

/-- Helper: when the text ahead has no newline in its leading whitespace run,
its collapse neither starts with a newline nor starts a blank run. -/
theorem collapseNl_no_blank_start (t : List Char)
    (h : '\n' ∉ t.takeWhile isWsChar) :
    blankRunAt (collapseNl t) = false ∧ (collapseNl t).headD 'x' ≠ '\n' := by
  have ha : ∀ c ∈ t.takeWhile isWsChar, wsNoNl c = true := by
    intro c hc
    have h1 : isWsChar c = true := List.mem_takeWhile_imp hc
    have h2 : ¬(c = '\n') := fun hcc => h (hcc ▸ hc)
    simp [wsNoNl, h1, h2]
  have hsplit : t.takeWhile isWsChar ++ t.dropWhile isWsChar = t :=
    (List.takeWhile_append_dropWhile isWsChar t)
  have hcoll : collapseNl t
      = t.takeWhile isWsChar ++ collapseNl (t.dropWhile isWsChar) := by
    conv_lhs => rw [← hsplit]
    exact collapseNl_ws_prefix _ _ ha
  rcases hb : t.dropWhile isWsChar with _ | ⟨cb, b'⟩
  · have hrw : collapseNl t = t.takeWhile isWsChar := by
      rw [hcoll, hb]
      rw [show collapseNl [] = [] from rfl]
      exact List.append_nil _
    rw [hrw]
    constructor
    · rw [blankRunAt]
      have h1 : (t.takeWhile isWsChar).takeWhile wsNoNl = t.takeWhile isWsChar :=
        List.takeWhile_eq_self_iff.2 ha
      have h2 : (t.takeWhile isWsChar).dropWhile wsNoNl = [] :=
        List.dropWhile_eq_nil_iff.2 (fun x hx => ha x hx)
      rw [h2, startsTwoNl_eq_false]
      · simp
      · intro b2 r heq
        have : '\n' ∈ t.takeWhile isWsChar := by rw [heq]; simp
        exact absurd this h
    · intro hcc
      rcases hta : t.takeWhile isWsChar with _ | ⟨c1, a'⟩
      · rw [hta] at hcc
        simp at hcc
      · rw [hta] at hcc
        simp only [List.headD_cons] at hcc
        subst hcc
        have : '\n' ∈ t.takeWhile isWsChar := by rw [hta]; simp
        exact absurd this h
  · have hcbws : isWsChar cb = false := by
      rcases dropWhile_headD_false isWsChar t 'x' with hnil | hfalse
      · rw [hb] at hnil; cases hnil
      · rw [hb] at hfalse
        simpa using hfalse
    have hcbn : ¬(cb = '\n') := by
      intro hcc
      subst hcc
      simp [isWsChar] at hcbws
    have hrw : collapseNl t = t.takeWhile isWsChar ++ cb :: collapseNl b' := by
      rw [hcoll, hb, collapseNl_cons_ne hcbn]
    rw [hrw]
    have hcbwsNoNl : wsNoNl cb = false := by simp [wsNoNl, hcbws]
    constructor
    · rw [blankRunAt]
      have htw := takeWhile_append_all wsNoNl (t.takeWhile isWsChar)
        (cb :: collapseNl b') ha
      have h2 : (t.takeWhile isWsChar ++ cb :: collapseNl b').dropWhile wsNoNl
          = cb :: collapseNl b' := by
        rw [htw.2, List.dropWhile_cons, if_neg (by simp [hcbwsNoNl])]
      rw [h2, startsTwoNl_eq_false]
      · simp only [List.headD_cons, Bool.or_false, Bool.and_eq_false_iff]
        right
        simp [hcbn]
      · intro b2 r heq
        rcases hta : t.takeWhile isWsChar with _ | ⟨c1, a'⟩
        · rw [hta, List.nil_append] at heq
          injection heq with hcb _
          exact absurd hcb hcbn
        · rw [hta, List.cons_append] at heq
          injection heq with hc1 _
          have : wsNoNl c1 = true := ha c1 (by rw [hta]; simp)
          rw [hc1] at this
          simp [wsNoNl, isWsChar] at this
    · intro hcc
      rcases hta : t.takeWhile isWsChar with _ | ⟨c1, a'⟩
      · rw [hta, List.nil_append] at hcc
        simp only [List.headD_cons] at hcc
        exact hcbn hcc
      · rw [hta, List.cons_append] at hcc
        simp only [List.headD_cons] at hcc
        have : wsNoNl c1 = true := ha c1 (by rw [hta]; simp)
        rw [hcc] at this
        simp [wsNoNl, isWsChar] at this

/-- Helper: a matched blank-run span is consumed down to a tail whose leading
whitespace holds no further newline. -/
theorem collapseNlSkip_decomp :
    ∀ (n : Nat) (rest : List Char), rest.length ≤ n →
      '\n' ∈ rest.takeWhile isWsChar →
      ∃ b', collapseNlSkip rest = collapseNl b'
        ∧ '\n' ∉ b'.takeWhile isWsChar ∧ b'.length ≤ rest.length := by
  intro n
  induction n with
  | zero =>
    intro rest hn hmem
    have : rest = [] := List.length_eq_zero.1 (by omega)
    subst this
    simp at hmem
  | succ n ih =>
    intro rest hn hmem
    match rest with
    | [] => simp at hmem
    | a :: r' =>
      by_cases ha : a = '\n'
      · subst ha
        rw [collapseNlSkip_cons_nl]
        by_cases hcont : ((r'.takeWhile isWsChar).contains '\n') = true
        · rw [if_pos hcont]
          obtain ⟨b', hb', hinv, hlen⟩ := ih r' (by simp at hn; omega)
            (List.elem_iff.1 hcont)
          exact ⟨b', hb', hinv, by simp; omega⟩
        · rw [if_neg hcont]
          exact ⟨r', rfl, fun hm => hcont (List.elem_eq_true_of_mem hm),
            by simp⟩
      · have haws : isWsChar a = true := by
          rcases hws : isWsChar a with _ | _
          · rw [List.takeWhile_cons, if_neg (by simp [hws])] at hmem
            cases hmem
          · rfl
        have hmem' : '\n' ∈ r'.takeWhile isWsChar := by
          rw [List.takeWhile_cons, if_pos haws] at hmem
          rcases List.mem_cons.1 hmem with heq | hmem'
          · exact absurd heq.symm ha
          · exact hmem'
        rw [collapseNlSkip_cons_ne ha]
        obtain ⟨b', hb', hinv, hlen⟩ := ih r' (by simp at hn; omega) hmem'
        exact ⟨b', hb', hinv, by simp; omega⟩

/-- Helper: the collapse leaves no uncollapsed blank run anywhere. -/
theorem collapseNl_noBlankRun :
    ∀ (n : Nat) (t : List Char), t.length ≤ n →
      noBlankRunB (collapseNl t) = true := by
  intro n
  induction n with
  | zero =>
    intro t hn
    have : t = [] := List.length_eq_zero.1 (by omega)
    subst this
    rfl
  | succ n ih =>
    intro t hn
    match t with
    | [] => rfl
    | a :: rest =>
      by_cases ha : a = '\n'
      · subst ha
        rw [collapseNl_cons_nl]
        by_cases hcont : ((rest.takeWhile isWsChar).contains '\n') = true
        · rw [if_pos hcont]
          obtain ⟨b', hb', hinv, hlen⟩ := collapseNlSkip_decomp rest.length
            rest le_rfl (List.elem_iff.1 hcont)
          rw [hb']
          rw [noBlankRunB_cons_nl, noBlankRunB_cons_nl]
          have hK := collapseNl_no_blank_start b' hinv
          have hrun : noBlankRunB (collapseNl b') = true :=
            ih b' (by simp at hn; omega)
          have hb2 : blankRunAt ('\n' :: collapseNl b') = false := by
            rw [blankRunAt]
            rw [List.takeWhile_cons, if_neg (by simp [wsNoNl])]
            rw [startsTwoNl_eq_false]
            · simp
            · intro b2 r heq
              injection heq with _ h2
              intro hb2eq
              apply hK.2
              rw [h2, hb2eq]
              simp
          simp [hK.1, hb2, hrun]
        · rw [if_neg hcont]
          rw [noBlankRunB_cons_nl]
          have hK := collapseNl_no_blank_start rest
            (fun hm => hcont (List.elem_eq_true_of_mem hm))
          have hrun : noBlankRunB (collapseNl rest) = true :=
            ih rest (by simp at hn; omega)
          simp [hK.1, hrun]
      · rw [collapseNl_cons_ne ha, noBlankRunB_cons_ne ha]
        exact ih rest (by simp at hn; omega)

/-- Helper: the cleaned body has all blank-line runs collapsed. -/
theorem cleanText_noBlankRun (t : List Char) :
    noBlankRunB (cleanText t) = true := by
  unfold cleanText
  exact collapseNl_noBlankRun _ _ le_rfl

theorem splitNl_ne_nil (l : List Char) : splitNl l ≠ [] := by
  rw [splitNl.eq_def]
  split
  · simp
  · simp
  · split <;> simp

theorem splitNl_cons_ne {c : Char} (hc : c ≠ '\n') (l : List Char) :
    splitNl (c :: l) = (splitNl l).modifyHead (c :: ·) := by
  rw [splitNl.eq_def]
  split
  · rename_i heq
    simp at heq
  · rename_i rest heq
    injection heq with h1 _
    exact absurd h1 hc
  · rename_i x cc rest hne heq
    injection heq with h1 h2
    subst h1
    subst h2
    rcases hsp : splitNl l with _ | ⟨g, gs⟩
    · exact absurd hsp (splitNl_ne_nil l)
    · simp [List.modifyHead]

theorem splitNl_append_nl :
    ∀ (a b : List Char), splitNl (a ++ '\n' :: b) = splitNl a ++ splitNl b := by
  intro a
  induction a with
  | nil => intro b; rfl
  | cons c a' ih =>
    intro b
    by_cases hc : c = '\n'
    · subst hc
      rw [List.cons_append]
      rw [show splitNl ('\n' :: (a' ++ '\n' :: b)) = [] :: splitNl (a' ++ '\n' :: b) from rfl]
      rw [show splitNl ('\n' :: a') = [] :: splitNl a' from rfl]
      rw [ih b]
      rfl
    · rw [List.cons_append, splitNl_cons_ne hc, splitNl_cons_ne hc, ih b]
      rcases hsp : splitNl a' with _ | ⟨g, gs⟩
      · exact absurd hsp (splitNl_ne_nil a')
      · simp [List.modifyHead]

theorem mem_splitNl_no_nl :
    ∀ (l g : List Char), g ∈ splitNl l → '\n' ∉ g := by
  intro l
  induction l with
  | nil =>
    intro g hg
    rw [show splitNl [] = [[]] from rfl] at hg
    rcases List.mem_singleton.1 hg with rfl
    simp
  | cons c rest ih =>
    intro g hg
    by_cases hc : c = '\n'
    · subst hc
      rw [show splitNl ('\n' :: rest) = [] :: splitNl rest from rfl] at hg
      rcases List.mem_cons.1 hg with rfl | hg
      · simp
      · exact ih g hg
    · rw [splitNl_cons_ne hc] at hg
      rcases hsp : splitNl rest with _ | ⟨g0, gs⟩
      · exact absurd hsp (splitNl_ne_nil rest)
      · rw [hsp] at hg
        simp only [List.modifyHead] at hg
        rcases List.mem_cons.1 hg with rfl | hg
        · intro hmem
          rcases List.mem_cons.1 hmem with heq | hmem
          · exact hc heq.symm
          · exact ih g0 (by rw [hsp]; simp) hmem
        · exact ih g (by rw [hsp]; simp [hg])

theorem splitNl_no_nl : ∀ (l : List Char), '\n' ∉ l → splitNl l = [l] := by
  intro l
  induction l with
  | nil => intro _; rfl
  | cons c rest ih =>
    intro h
    have hc : c ≠ '\n' := fun hcc => h (by simp [hcc])
    rw [splitNl_cons_ne hc, ih (fun hm => h (List.mem_cons_of_mem _ hm))]
    rfl

/-- Helper: joining newline-free groups with `'\n' :: ind` and prefixing
`ind` yields exactly the groups each prefixed by `ind` as lines. -/
theorem splitNl_join_indent :
    ∀ (gs : List (List Char)) (ind : List Char), gs ≠ [] →
      (∀ g ∈ gs, '\n' ∉ g) → '\n' ∉ ind →
      splitNl (ind ++ joinSep ('\n' :: ind) gs)
        = gs.map (fun g => ind ++ g) := by
  intro gs
  induction gs with
  | nil => intro ind h _ _; exact absurd rfl h
  | cons g gs' ih =>
    intro ind _ hfree hind
    rcases gs' with _ | ⟨g2, gs''⟩
    · rw [show joinSep ('\n' :: ind) [g] = g from rfl]
      rw [splitNl_no_nl (ind ++ g) (by
        intro hm
        rcases List.mem_append.1 hm with hm | hm
        · exact hind hm
        · exact hfree g (List.mem_cons_self _ _) hm)]
      rfl
    · rw [show joinSep ('\n' :: ind) (g :: g2 :: gs'')
        = g ++ ('\n' :: ind) ++ joinSep ('\n' :: ind) (g2 :: gs'') from rfl]
      have hassoc : ind ++ (g ++ ('\n' :: ind) ++ joinSep ('\n' :: ind) (g2 :: gs''))
          = (ind ++ g) ++ '\n' :: (ind ++ joinSep ('\n' :: ind) (g2 :: gs'')) := by
        simp
      rw [hassoc, splitNl_append_nl]
      rw [ih ind (by simp) (fun g' hg' => hfree g' (List.mem_cons_of_mem _ hg')) hind]
      rw [splitNl_no_nl (ind ++ g) (by
        intro hm
        rcases List.mem_append.1 hm with hm | hm
        · exact hind hm
        · exact hfree g (List.mem_cons_self _ _) hm)]
      rfl

/-- C8 counterexample: the claim says every rendered body "has its HTML
entities unescaped", but the renderer decodes only five specific entities —
a body containing `&amp;` is emitted with the entity still encoded. -/
theorem c8_amp_survives_rendering :
    containsSeq "&amp;".data
      ((formatCommentsAsText
        [CNode.mk 1 (some "comment") (some "al") none (some 0)
          (some "&amp; rest") none false false 0 none] "T" 7 9).data)
      = true := by
  have hclean : cleanText "&amp; rest".data = "&amp; rest".data := by
    simp [cleanText, fiveUnescape, unescSlash, unescApos, unescQuot, unescGt,
      unescLt, replaceAllG]
    decide
  simp [formatCommentsAsText, formatComment, hclean]
  decide

/-- C8 (amended): in the rendered body of a comment, exactly the five
entities `&#x2F;`, `&#x27;`, `&quot;`, `&gt;`, `&lt;` are unescaped — none of
their spellings survives the replacement stage, while other entities such as
`&amp;` are left encoded; anchor tags and all other complete `<...>` markup
are stripped, so the cleaned body never has a `<` later followed by a `>`;
runs of internal blank lines are collapsed (never a `\n`, whitespace, `\n`
pattern with a nonempty run between); and each body line is re-indented with
the comment's two-space-per-depth indent plus three spaces. -/
theorem c8_body_cleaning (t u : List Char) (d : Nat) :
    (¬ "&#x2F;".data <:+: fiveUnescape t ∧ ¬ "&#x27;".data <:+: fiveUnescape t
      ∧ ¬ "&quot;".data <:+: fiveUnescape t ∧ ¬ "&gt;".data <:+: fiveUnescape t
      ∧ ¬ "&lt;".data <:+: fiveUnescape t)
    ∧ tagFreeB (cleanText t) = true
    ∧ noBlankRunB (cleanText t) = true
    ∧ ∀ line ∈ splitNl (indentChars d ++ "   ".data ++
        joinSep ('\n' :: indentChars d ++ "   ".data) (splitNl (cleanText u))),
        (indentChars d ++ "   ".data) <+: line := by
  refine ⟨fiveUnescape_entity_free t, cleanText_tagFree t,
    cleanText_noBlankRun t, ?_⟩
  intro line hline
  have hind : '\n' ∉ indentChars d ++ "   ".data := by
    intro hm
    rcases List.mem_append.1 hm with hm | hm
    · have := List.eq_of_mem_replicate hm
      simp at this
    · simp at hm
  rw [List.cons_append] at hline
  rw [splitNl_join_indent (splitNl (cleanText u)) (indentChars d ++ "   ".data)
    (splitNl_ne_nil _) (fun g hg => mem_splitNl_no_nl _ g hg) hind] at hline
  rcases List.mem_map.1 hline with ⟨g, _, rfl⟩
  exact List.prefix_append _ _

theorem c8_body_cleaning_witness :
    (indentChars 1 ++ "   ".data) <+: "     a".data := by
  have hcl : cleanText "a\nb".data = "a\nb".data := by
    simp [cleanText, fiveUnescape, unescSlash, unescApos, unescQuot, unescGt,
      unescLt, replaceAllG]
    decide
  refine (c8_body_cleaning [] "a\nb".data 1).2.2.2 "     a".data ?_
  rw [hcl]
  decide
